import Mathlib

/-!
# Verification of the `maximus` coordinator and dashboard

Shallow embedding of the job-orchestration coordinator (`src/coordinator.ts`,
the events-enabled variant) and of the dashboard server
(`src/dashboard/dashboard-server.ts`, `src/dashboard/coordinator-events.ts`).

Strings are modelled as `List Char` (the sequence of UTF-16-ish code points a
JS string holds; none of the verified properties depend on surrogate-pair
subtleties).  Machine integers do not occur: every number the coordinator
manipulates (iteration counters, job counts) is a small nonnegative integer,
modelled as `Nat`.
-/

namespace Maximus

/-! ## Decimal printing and parsing

`jsNumToString n` models the JavaScript template-literal conversion
`${n}` for a nonnegative integer `n` (decimal, no sign, no grouping).
`parseDigits` models `parseInt` applied to a string consisting only of
decimal digits.  Both are used by the coordinator (branch names
`emergent/${this.iteration}/${job.id}`, the product-state report) and by
the dashboard (`parseInt(match[1])`).
-/

/-- The decimal digit character for `k` (meaningful for `k < 10`). -/
def digitChar (k : Nat) : Char :=
  if k = 0 then '0' else if k = 1 then '1' else if k = 2 then '2'
  else if k = 3 then '3' else if k = 4 then '4' else if k = 5 then '5'
  else if k = 6 then '6' else if k = 7 then '7' else if k = 8 then '8' else '9'

/-- Fuel-driven digit accumulation; `fuel > n` always suffices. -/
def jsNumToStringCore (fuel : Nat) (n : Nat) (acc : List Char) : List Char :=
  match fuel with
  | 0 => acc
  | fuel + 1 =>
    if n < 10 then digitChar n :: acc
    else jsNumToStringCore fuel (n / 10) (digitChar (n % 10) :: acc)

/-- JavaScript string conversion of a nonnegative integer (`${n}`). -/
def jsNumToString (n : Nat) : List Char :=
  jsNumToStringCore (n + 1) n []

/-- Numeric value of a digit character. -/
def digitVal (c : Char) : Nat := c.toNat - 48

/-- `parseInt` on a string of decimal digits. -/
def parseDigits (cs : List Char) : Nat :=
  cs.foldl (fun acc c => acc * 10 + digitVal c) 0

/-! ## The Job Lifecycle Store

The coordinator persists each job as one file `<id>.json` in exactly one of
the four directories `pending`, `in-progress`, `completed`, `failed` under the
jobs root (`initialize`, `writeJobFiles`, `spawnWorker` in
`src/coordinator.ts`).  A directory is modelled by the membership predicate of
its file names: `Store = Bucket → String → Bool`.  File contents are
irrelevant to every claim about the store, which only mention id membership.

`fs.writeFileSync(dir/id)` makes `id` a member of `dir` (creating or
overwriting); `fs.renameSync(from/id, to/id)` removes `id` from `from` and
makes it a member of `to` (overwriting any file already at the target);
`fs.existsSync(dir/id)` is membership.
-/

/-- The four job-lifecycle directories. -/
inductive Bucket where
  | pending
  | inProgress
  | completed
  | failed
deriving DecidableEq, Repr

/-- Directory state of the jobs root: which ids are present in which bucket. -/
def Store : Type := Bucket → String → Bool

/-- The empty jobs root (all four directories empty). -/
def Store.empty : Store := fun _ _ => false

/-- `fs.writeFileSync` of `<id>.json` into bucket `b`. -/
def fsWrite (s : Store) (b : Bucket) (id : String) : Store :=
  fun b' id' => if b' = b ∧ id' = id then true else s b' id'

/-- `fs.renameSync` of `<id>.json` from bucket `src` to bucket `dst`. -/
def fsRename (s : Store) (src dst : Bucket) (id : String) : Store :=
  fun b' id' =>
    if id' = id then
      if b' = dst then true else if b' = src then false else s b' id'
    else s b' id'

/-- Job priority (`"critical" | "high" | "medium" | "low"`). -/
inductive Priority where
  | critical
  | high
  | medium
  | low
deriving DecidableEq, Repr

/-- Estimated complexity (`"trivial" | "small" | "medium" | "large"`). -/
inductive Complexity where
  | trivial
  | small
  | medium
  | large
deriving DecidableEq, Repr

/-- The `Job` interface of `src/coordinator.ts`. -/
structure Job where
  id : String
  title : String
  description : String
  priority : Priority
  estimatedComplexity : Complexity
  files : List String
  acceptanceCriteria : List String
  context : Option String := none
deriving DecidableEq, Repr

/-- The `IterationResult` interface of `src/coordinator.ts`.  Branch names are
kept as character lists because they are assembled by string interpolation. -/
structure IterationResult where
  iteration : Nat
  jobsCompleted : Nat
  jobsFailed : Nat
  branches : List (List Char)
  timestamp : String
deriving DecidableEq, Repr

/-- Events pushed to the Event/Notification Layer (`CoordinatorEvents`).
In the integrated system the dashboard server registers a `'*'` listener at
construction and the bus stays enabled, so `emitEvent` always delivers. -/
inductive Ev where
  | jobCreated (id : String)
  | jobStatus (id : String) (b : Bucket)
  | iterationStart (iteration : Nat)
  | iterationComplete (result : IterationResult)
deriving DecidableEq, Repr

/-- The guarded move performed by `spawnWorker`:
`if (fs.existsSync(fromPath)) { fs.renameSync(fromPath, toPath);
coordinatorEvents.emitJobStatus(job.id, to); }` — note that the source
contains no `console` call on either path of this block, so the emitted log
list is `[]` in both cases. -/
def moveJob (s : Store) (id : String) (src dst : Bucket) :
    Store × List Ev × List String :=
  if s src id then (fsRename s src dst id, [Ev.jobStatus id dst], [])
  else (s, [], [])

/-- Store operations of the Job Lifecycle Store: `create` (a `writeJobFiles`
step writing into `pending` and emitting `job:created`) and the guarded
`transition`. -/
inductive Op where
  | create (id : String)
  | transition (id : String) (src dst : Bucket)
deriving DecidableEq, Repr

/-- Apply one store operation. -/
def applyOp (s : Store) : Op → Store
  | .create id => fsWrite s .pending id
  | .transition id src dst => (moveJob s id src dst).1

/-- Execute a list of store operations from left to right. -/
def execOps (s : Store) : List Op → Store
  | [] => s
  | op :: ops => execOps (applyOp s op) ops

/-- All bucket names. -/
def allBuckets : List Bucket := [.pending, .inProgress, .completed, .failed]

/-- In how many of the four buckets is `id` present. -/
def bucketCount (s : Store) (id : String) : Nat :=
  (allBuckets.filter (fun b => s b id)).length

/-- Ids created along a trace. -/
def createdIds : List Op → List String
  | [] => []
  | .create id :: ops => id :: createdIds ops
  | .transition _ _ _ :: ops => createdIds ops

/-- Every `create` in the trace happens while its id is absent from all four
buckets (no id reuse across iterations). -/
def freshCreates (s : Store) : List Op → Bool
  | [] => true
  | .create id :: ops =>
      decide (∀ b ∈ allBuckets, s b id = false) &&
        freshCreates (applyOp s (.create id)) ops
  | .transition id src dst :: ops =>
      freshCreates (applyOp s (.transition id src dst)) ops

/-! ## Dispatch & Execution Stage

`spawnWorker` (src/coordinator.ts:723-885): moves the job `pending →
in-progress`, runs the external steps (clone, branch creation, oracle call,
bash application, commit, push) inside a `try`, then moves `in-progress →
completed` on success or `in-progress → failed` in the `catch`.  The external
steps are abstracted by a `succeeds : Job → Bool` oracle: `true` means every
step of the `try` block succeeded, `false` means some step threw.  The worker
sprite is deleted in `finally` either way (no store effect).

`runWorkers` (src/coordinator.ts:887-910) slices the job list into batches of
`CONFIG.maxWorkers` and awaits each batch with `Promise.all`.  The jobs of a
batch run concurrently but each `spawnWorker` only renames files named by its
own job id, so on stores the batch effects are applied job by job in batch
order, which is also the order `Promise.all` returns the results in.
-/

/-- Branch name `emergent/${this.iteration}/${job.id}` (src/coordinator.ts:724). -/
def branchName (iteration : Nat) (id : String) : List Char :=
  "emergent/".data ++ jsNumToString iteration ++ '/' :: id.data

/-- Outcome of one `spawnWorker` call: `{ success: boolean; branch: string }`. -/
structure WorkerResult where
  success : Bool
  branch : List Char
deriving DecidableEq, Repr

/-- Store/event effect and return value of `spawnWorker`. -/
def spawnWorkerEffect (iteration : Nat) (succeeds : Job → Bool) (s : Store)
    (job : Job) : Store × List Ev × WorkerResult :=
  let branch := branchName iteration job.id
  let m1 := moveJob s job.id .pending .inProgress
  if succeeds job then
    let m2 := moveJob m1.1 job.id .inProgress .completed
    (m2.1, m1.2.1 ++ m2.2.1, ⟨true, branch⟩)
  else
    let m2 := moveJob m1.1 job.id .inProgress .failed
    (m2.1, m1.2.1 ++ m2.2.1, ⟨false, branch⟩)

/-- Fuel-driven batch slicing; `fuel > xs.length` always suffices when
`w ≥ 1`.  Mirrors `for (let i = 0; i < jobs.length; i += CONFIG.maxWorkers)
{ jobs.slice(i, i + CONFIG.maxWorkers) }`. -/
def chunkFuel (w : Nat) : Nat → List Job → List (List Job)
  | 0, _ => []
  | _ + 1, [] => []
  | fuel + 1, x :: xs => (x :: xs).take w :: chunkFuel w fuel ((x :: xs).drop w)

/-- The batches `runWorkers` processes, in order. -/
def chunk (w : Nat) (xs : List Job) : List (List Job) :=
  chunkFuel w (xs.length + 1) xs

/-- One batch: `await Promise.all(batch.map((job) => this.spawnWorker(job)))`.
Results are collected in batch order. -/
def runBatch (iteration : Nat) (succeeds : Job → Bool) (s : Store) :
    List Job → Store × List Ev × List WorkerResult
  | [] => (s, [], [])
  | j :: js =>
    let r := spawnWorkerEffect iteration succeeds s j
    let rest := runBatch iteration succeeds r.1 js
    (rest.1, r.2.1 ++ rest.2.1, r.2.2 :: rest.2.2)

/-- Batch-sequential execution over a list of batches. -/
def runBatches (iteration : Nat) (succeeds : Job → Bool) (s : Store) :
    List (List Job) → Store × List Ev × List WorkerResult
  | [] => (s, [], [])
  | b :: bs =>
    let r := runBatch iteration succeeds s b
    let rest := runBatches iteration succeeds r.1 bs
    (rest.1, r.2.1 ++ rest.2.1, r.2.2 ++ rest.2.2)

/-- The stores at which each batch starts, followed by the final store:
`batchStarts … bs ≠ []` and its `i`-th entry is the store when batch `i`
begins. -/
def batchStarts (iteration : Nat) (succeeds : Job → Bool) (s : Store) :
    List (List Job) → List Store
  | [] => [s]
  | b :: bs => s :: batchStarts iteration succeeds (runBatch iteration succeeds s b).1 bs

/-- The result-collection loop of `runWorkers`: successful results push their
branch, failures increment `failed`. -/
def collectResults : List WorkerResult → List (List Char) × Nat
  | [] => ([], 0)
  | r :: rs =>
    let rest := collectResults rs
    if r.success then (r.branch :: rest.1, rest.2) else (rest.1, rest.2 + 1)

/-- `runWorkers(jobs)` (src/coordinator.ts:887-910): batched dispatch
returning `{ branches, failed }` together with the final store and events. -/
def runWorkers (w iteration : Nat) (succeeds : Job → Bool) (s : Store)
    (jobs : List Job) : Store × List Ev × List (List Char) × Nat :=
  let r := runBatches iteration succeeds s (chunk w jobs)
  (r.1, r.2.1, collectResults r.2.2)

/-- The id sits in a terminal bucket (`completed` or `failed`). -/
def terminalIn (s : Store) (id : String) : Bool :=
  s .completed id || s .failed id

/-- A job record with the given id (concrete instances for evaluation). -/
def mkJob (id : String) : Job :=
  { id := id, title := "t", description := "d", priority := .medium,
    estimatedComplexity := .small, files := [], acceptanceCriteria := [] }

/-- A jobs root in which every id sits in `pending` (and nowhere else). -/
def allPending : Store := fun b _ => decide (b = Bucket.pending)

/-! ## Merge Stage

`mergeBranches` (src/coordinator.ts:912-950).  The git commands issued on the
coordinator sprite are recorded as a trace.  A per-branch `git merge` may fail
(merge conflict), modelled by the `conflict` oracle; the `catch` then issues
`git merge --abort` and the loop continues.  `git fetch --all`, `git merge
--abort` and `git push` are external calls whose own failures would hit the
outer `catch` (returning `false`); they are not needed by any claim and are
modelled as succeeding. -/

/-- Git commands issued by the Merge Stage. -/
inductive GitCmd where
  | fetchAll
  | merge (branch : List Char)
  | mergeAbort
  | push
deriving DecidableEq, Repr

/-- The per-branch merge loop with conflict skip-and-continue. -/
def mergeLoop (conflict : List Char → Bool) : List (List Char) → List GitCmd
  | [] => []
  | b :: bs =>
    (GitCmd.merge b :: if conflict b then [GitCmd.mergeAbort] else []) ++
      mergeLoop conflict bs

/-- `mergeBranches(branches)`: returns `(returned value, git trace)`.
`if (!this.coordinatorSprite || branches.length === 0) return true` issues no
command at all. -/
def mergeBranches (conflict : List Char → Bool) (branches : List (List Char)) :
    Bool × List GitCmd :=
  if branches = [] then (true, [])
  else (true, GitCmd.fetchAll :: (mergeLoop conflict branches ++ [GitCmd.push]))

/-- The branch a trace entry merges, if it is a `git merge`. -/
def mergeTarget : GitCmd → Option (List Char)
  | .merge b => some b
  | _ => none

/-! ## Iteration Controller

`runIteration` (src/coordinator.ts:995-1044) and the `while (continueLoop)`
loop of `run` (src/coordinator.ts:1046-1072).  `checkpoint` is a no-op in this
variant (`@fly/sprites` v0.0.1 exposes no `checkpoint` function, and the source
capability-gates the call), so it leaves no effect.  `updateProductState`
writes the product-state report; the written text is modelled separately by
`stateContent`.  The analysis stage and the per-job/per-branch external calls
are abstracted as oracles (`analysis`, `succeeds`, `conflict`). -/

/-- `CONFIG.maxWorkers` of the events-enabled coordinator (reduced to 2). -/
def CONFIG_maxWorkers : Nat := 2

/-- `CONFIG.maxIterations`. -/
def CONFIG_maxIterations : Nat := 10

/-- Observable effect of one `runIteration` call. -/
structure IterEffect where
  iteration : Nat
  events : List Ev
  persisted : List Job
  dispatchCalled : Bool
  mergeCalled : Bool
  gitTrace : List GitCmd
  result : Option IterationResult
  store : Store
  continueLoop : Bool

/-- `writeJobFiles(jobs)` (src/coordinator.ts:714-721): writes each job into
`pending` and emits `job:created`. -/
def writeJobFiles (s : Store) : List Job → Store × List Ev
  | [] => (s, [])
  | j :: js =>
    let rest := writeJobFiles (fsWrite s .pending j.id) js
    (rest.1, Ev.jobCreated j.id :: rest.2)

/-- One `runIteration` call, entered with `this.iteration = prev`. -/
def runIteration (analysis : Nat → List Job) (succeeds : Job → Bool)
    (conflict : List Char → Bool) (ts : String) (s : Store) (prev : Nat) :
    IterEffect :=
  let iteration := prev + 1
  let jobs := analysis iteration
  if jobs = [] then
    { iteration := iteration, events := [Ev.iterationStart iteration],
      persisted := [], dispatchCalled := false, mergeCalled := false,
      gitTrace := [], result := none, store := s, continueLoop := false }
  else
    let w := writeJobFiles s jobs
    let r := runWorkers CONFIG_maxWorkers iteration succeeds w.1 jobs
    let m := mergeBranches conflict r.2.2.1
    let result : IterationResult :=
      { iteration := iteration, jobsCompleted := r.2.2.1.length,
        jobsFailed := r.2.2.2, branches := r.2.2.1, timestamp := ts }
    { iteration := iteration,
      events := Ev.iterationStart iteration :: (w.2 ++ r.2.1 ++ [Ev.iterationComplete result]),
      persisted := jobs, dispatchCalled := true, mergeCalled := true,
      gitTrace := m.2, result := some result, store := r.1,
      continueLoop := decide (iteration < CONFIG_maxIterations) }

/-- The `while (continueLoop)` loop of `run`, starting from
`this.iteration = prev`; fuel-driven, `CONFIG_maxIterations + 1` always
suffices because `continueLoop` requires `iteration < CONFIG.maxIterations`. -/
def runFrom (analysis : Nat → List Job) (succeeds : Job → Bool)
    (conflict : List Char → Bool) (ts : String) :
    Nat → Store → Nat → List IterEffect
  | 0, _, _ => []
  | fuel + 1, s, prev =>
    let e := runIteration analysis succeeds conflict ts s prev
    if e.continueLoop then
      e :: runFrom analysis succeeds conflict ts fuel e.store e.iteration
    else [e]

/-! ## Analysis Stage: parsing the oracle response

`runAnalysis` of the events-enabled coordinator (src/coordinator.ts:570-659)
extracts `textContent.match(/\[[\s\S]*\]/)` — the leftmost match of a greedy
pattern, i.e. the substring running from the first `[` that has some `]`
after it, through the last `]` of the whole text — and feeds it to
`JSON.parse`, returning `[]` when there is no match or parsing throws.  The
simple runner's `runAnalysis` (src/coordinator.ts:1199-1216) uses the lazy
pattern `/\[[\s\S]*?\]/`, whose match runs from the same `[` only through the
first `]` after it. -/

/-- JS regex `\d` (exactly the ASCII digits `0`-`9`). -/
def reDigit (c : Char) : Bool := 48 ≤ c.toNat && c.toNat ≤ 57

/-- The prefix of `cs` through its last `']'` (meaningful when `']' ∈ cs`). -/
def upToLastRB (cs : List Char) : List Char :=
  (cs.reverse.dropWhile (fun c => c ≠ ']')).reverse

/-- Leftmost match of `/\[[\s\S]*\]/`. -/
def extractGreedy : List Char → Option (List Char)
  | [] => none
  | c :: rest =>
    if c = '[' ∧ ']' ∈ rest then some ('[' :: upToLastRB rest)
    else extractGreedy rest

/-- Leftmost match of `/\[[\s\S]*?\]/`. -/
def extractLazy : List Char → Option (List Char)
  | [] => none
  | c :: rest =>
    if c = '[' ∧ ']' ∈ rest then
      some ('[' :: (rest.takeWhile (fun c => c ≠ ']') ++ [']']))
    else extractLazy rest

/-- JSON values.  A number is kept as its source lexeme: `JSON.parse` converts
it to a float, but no claim distinguishes two numerals denoting the same
float, and lexeme identity is strictly finer. -/
inductive Json where
  | null
  | bool (b : Bool)
  | num (lexeme : List Char)
  | str (chars : List Char)
  | arr (elems : List Json)
  | obj (members : List (List Char × Json))

/-- JSON insignificant whitespace (space, tab, line feed, carriage return). -/
def jsonWs (c : Char) : Bool := c = ' ' || c = '\t' || c = '\n' || c = '\r'

/-- Skip insignificant whitespace. -/
def skipWs (cs : List Char) : List Char := cs.dropWhile jsonWs

/-- Hexadecimal digit value. -/
def hexVal (c : Char) : Option Nat :=
  if 48 ≤ c.toNat ∧ c.toNat ≤ 57 then some (c.toNat - 48)
  else if 97 ≤ c.toNat ∧ c.toNat ≤ 102 then some (c.toNat - 87)
  else if 65 ≤ c.toNat ∧ c.toNat ≤ 70 then some (c.toNat - 55)
  else none

/-- JSON string body, entered after the opening quote; returns the decoded
characters and the input after the closing quote.  `\uXXXX` escapes are
decoded with `Char.ofNat`; a `\u`-escaped lone surrogate (which no claim
exercises) decodes to the `Char.ofNat` default. -/
def parseJString : Nat → List Char → Option (List Char × List Char)
  | 0, _ => none
  | fuel + 1, cs =>
    match cs with
    | [] => none
    | '"' :: rest => some ([], rest)
    | '\\' :: esc =>
      match esc with
      | '"' :: r => (parseJString fuel r).map (fun p => ('"' :: p.1, p.2))
      | '\\' :: r => (parseJString fuel r).map (fun p => ('\\' :: p.1, p.2))
      | '/' :: r => (parseJString fuel r).map (fun p => ('/' :: p.1, p.2))
      | 'b' :: r => (parseJString fuel r).map (fun p => (Char.ofNat 8 :: p.1, p.2))
      | 'f' :: r => (parseJString fuel r).map (fun p => (Char.ofNat 12 :: p.1, p.2))
      | 'n' :: r => (parseJString fuel r).map (fun p => ('\n' :: p.1, p.2))
      | 'r' :: r => (parseJString fuel r).map (fun p => ('\r' :: p.1, p.2))
      | 't' :: r => (parseJString fuel r).map (fun p => ('\t' :: p.1, p.2))
      | 'u' :: h1 :: h2 :: h3 :: h4 :: r =>
        match hexVal h1, hexVal h2, hexVal h3, hexVal h4 with
        | some a, some b, some c, some d =>
          (parseJString fuel r).map
            (fun p => (Char.ofNat (a * 4096 + b * 256 + c * 16 + d) :: p.1, p.2))
        | _, _, _, _ => none
      | _ => none
    | c :: rest =>
      if c.toNat < 32 then none
      else (parseJString fuel rest).map (fun p => (c :: p.1, p.2))

/-- Exponent part of a JSON number (empty or `e`/`E` sign? digits). -/
def finishExp (lex : List Char) (cs : List Char) : Option (Json × List Char) :=
  match cs with
  | e :: r =>
    if e = 'e' ∨ e = 'E' then
      let sr : List Char × List Char :=
        match r with
        | '+' :: r' => (['+'], r')
        | '-' :: r' => (['-'], r')
        | _ => ([], r)
      let ds := sr.2.takeWhile reDigit
      if ds = [] then none
      else some (.num (lex ++ e :: (sr.1 ++ ds)), sr.2.dropWhile reDigit)
    else some (.num lex, cs)
  | [] => some (.num lex, [])

/-- Optional fraction then exponent of a JSON number. -/
def finishFrac (lex : List Char) (cs : List Char) : Option (Json × List Char) :=
  match cs with
  | '.' :: r =>
    let ds := r.takeWhile reDigit
    if ds = [] then none else finishExp (lex ++ '.' :: ds) (r.dropWhile reDigit)
  | _ => finishExp lex cs

/-- JSON number (`-? (0 | [1-9][0-9]*) frac? exp?`).  A digit left over after
a leading `0` (as in `01`) stays in the remainder and makes the surrounding
parse fail, exactly as in `JSON.parse`. -/
def parseNumber (cs : List Char) : Option (Json × List Char) :=
  let sc : List Char × List Char :=
    match cs with
    | '-' :: r => (['-'], r)
    | _ => ([], cs)
  match sc.2 with
  | '0' :: r => finishFrac (sc.1 ++ ['0']) r
  | c :: _ =>
    if reDigit c then
      finishFrac (sc.1 ++ sc.2.takeWhile reDigit) (sc.2.dropWhile reDigit)
    else none
  | [] => none

mutual

/-- JSON value, consuming leading whitespace. -/
def parseValue : Nat → List Char → Option (Json × List Char)
  | 0, _ => none
  | fuel + 1, cs =>
    match skipWs cs with
    | 'n' :: 'u' :: 'l' :: 'l' :: rest => some (.null, rest)
    | 't' :: 'r' :: 'u' :: 'e' :: rest => some (.bool true, rest)
    | 'f' :: 'a' :: 'l' :: 's' :: 'e' :: rest => some (.bool false, rest)
    | '"' :: rest => (parseJString fuel rest).map (fun p => (.str p.1, p.2))
    | '[' :: rest => (parseElems fuel rest).map (fun p => (.arr p.1, p.2))
    | '{' :: rest => (parseMembers fuel rest).map (fun p => (.obj p.1, p.2))
    | rest => parseNumber rest

/-- Elements of a JSON array, entered after `[` (or after a `,`). -/
def parseElems : Nat → List Char → Option (List Json × List Char)
  | 0, _ => none
  | fuel + 1, cs =>
    match skipWs cs with
    | ']' :: rest => some ([], rest)
    | _ =>
      match parseValue fuel cs with
      | none => none
      | some (v, r1) =>
        match skipWs r1 with
        | ',' :: r2 =>
          match parseElemsTail fuel r2 with
          | none => none
          | some (vs, r3) => some (v :: vs, r3)
        | ']' :: r2 => some ([v], r2)
        | _ => none

/-- Elements after a `,` (a trailing `]` here would be a trailing comma,
which `JSON.parse` rejects). -/
def parseElemsTail : Nat → List Char → Option (List Json × List Char)
  | 0, _ => none
  | fuel + 1, cs =>
    match parseValue fuel cs with
    | none => none
    | some (v, r1) =>
      match skipWs r1 with
      | ',' :: r2 =>
        match parseElemsTail fuel r2 with
        | none => none
        | some (vs, r3) => some (v :: vs, r3)
      | ']' :: r2 => some ([v], r2)
      | _ => none

/-- Members of a JSON object, entered after `{`. -/
def parseMembers : Nat → List Char → Option (List (List Char × Json) × List Char)
  | 0, _ => none
  | fuel + 1, cs =>
    match skipWs cs with
    | '}' :: rest => some ([], rest)
    | '"' :: rest => parseMembersKey fuel rest
    | _ => none

/-- One `key : value` member (entered after the key's opening quote), then
either `,` more members or `}`. -/
def parseMembersKey : Nat → List Char → Option (List (List Char × Json) × List Char)
  | 0, _ => none
  | fuel + 1, cs =>
    match parseJString fuel cs with
    | none => none
    | some (key, r1) =>
      match skipWs r1 with
      | ':' :: r2 =>
        match parseValue fuel r2 with
        | none => none
        | some (v, r3) =>
          match skipWs r3 with
          | ',' :: r4 =>
            match skipWs r4 with
            | '"' :: r5 =>
              match parseMembersKey fuel r5 with
              | none => none
              | some (ms, r6) => some ((key, v) :: ms, r6)
            | _ => none
          | '}' :: r4 => some ([(key, v)], r4)
          | _ => none
      | _ => none

end

/-- `JSON.parse`: a complete JSON text with nothing but whitespace after the
value.  `4 * (length + 1)` fuel is adequate: along every chain of recursive
calls at least one input character is consumed per two fuel units. -/
def jsonParse (cs : List Char) : Option Json :=
  match parseValue (4 * (cs.length + 1)) cs with
  | some (v, rest) => if skipWs rest = [] then some v else none
  | none => none

/-- Job-list extraction of the events-enabled `runAnalysis`: greedy regex
match, `JSON.parse`, `[]` on no-match or parse error.  `const jobs: Job[] =
JSON.parse(...)` performs no runtime validation, so the parsed array's raw
elements are returned.  (A successful parse of a match is necessarily an
array — the match starts with `[` — so folding the non-array case into the
error branch is unreachable.) -/
def codeAnalysisJobs (output : List Char) : List Json :=
  match extractGreedy output with
  | none => []
  | some sub =>
    match jsonParse sub with
    | some (.arr elems) => elems
    | _ => []

/-- Job-list extraction of the simple runner's `runAnalysis`: lazy regex. -/
def simpleAnalysisJobs (output : List Char) : List Json :=
  match extractLazy output with
  | none => []
  | some sub =>
    match jsonParse sub with
    | some (.arr elems) => elems
    | _ => []

/-- Scan for the `]` closing the bracket at depth 1, accumulating (reversed). -/
def scanArrClose : Nat → List Char → List Char → Option (List Char)
  | _, _, [] => none
  | depth, acc, c :: rest =>
    if c = '[' then scanArrClose (depth + 1) (c :: acc) rest
    else if c = ']' then
      if depth = 1 then some ((c :: acc).reverse)
      else scanArrClose (depth - 1) (c :: acc) rest
    else scanArrClose depth (c :: acc) rest

/-- Modelled from the spec claim C6's words: "the first top-level array-shaped
JSON substring of the response" — the substring from the first `[` to the
matching `]` at bracket depth 0. -/
def firstTopLevelArray : List Char → Option (List Char)
  | [] => none
  | '[' :: rest => scanArrClose 1 ['['] rest
  | _ :: rest => firstTopLevelArray rest

/-- The job-list production procedure exactly as claim C6 states it: parse the
first top-level array-shaped substring, degrade to `[]` when none is found or
parsing fails. -/
def specAnalysisJobs (output : List Char) : List Json :=
  match firstTopLevelArray output with
  | none => []
  | some sub =>
    match jsonParse sub with
    | some (.arr elems) => elems
    | _ => []

/-! ## Product-state report and the dashboard's iteration extraction

`updateProductState` (src/coordinator.ts:952-973) rewrites the report from a
template literal; `updateStateFromFiles` (src/dashboard/dashboard-server.ts:
150-182) recovers the iteration number with
`content.match(/Total iterations:\s*(\d+)/)` and `parseInt(match[1])`. -/

/-- `Array.prototype.join(sep)` on a list of strings. -/
def joinSep (sep : List Char) : List (List Char) → List Char
  | [] => []
  | [x] => x
  | x :: y :: xs => x ++ sep ++ joinSep sep (y :: xs)

/-- One line of the `## History` block:
`- Iteration ${r.iteration}: ${r.jobsCompleted} completed, ${r.jobsFailed} failed`. -/
def histLine (r : IterationResult) : List Char :=
  "- Iteration ".data ++ jsNumToString r.iteration ++ ": ".data ++
    jsNumToString r.jobsCompleted ++ " completed, ".data ++
    jsNumToString r.jobsFailed ++ " failed".data

/-- The report text `updateProductState` writes.  `builderIteration` is
`this.iteration`, `result` the just-recorded `IterationResult`, `results`
`this.results` (which already contains `result` at call time).
`result.branches.join(", ") || "none"` falls back to `"none"` exactly when
the joined string is empty. -/
def stateContent (builderIteration : Nat) (result : IterationResult)
    (results : List IterationResult) : List Char :=
  let joined := joinSep ", ".data result.branches
  "# Product State\n\nLast updated: ".data ++ result.timestamp.data ++
  "\nTotal iterations: ".data ++ jsNumToString builderIteration ++
  "\n\n## Latest Iteration (#".data ++ jsNumToString result.iteration ++
  ")\n- Jobs completed: ".data ++ jsNumToString result.jobsCompleted ++
  "\n- Jobs failed: ".data ++ jsNumToString result.jobsFailed ++
  "\n- Branches merged: ".data ++ (if joined = [] then "none".data else joined) ++
  "\n\n## History\n".data ++ joinSep "\n".data (results.map histLine) ++
  "\n".data

/-- JS regex `\s` (ECMAScript WhiteSpace ∪ LineTerminator). -/
def reSpace (c : Char) : Bool :=
  c.toNat = 0x20 || c.toNat = 0x9 || c.toNat = 0xa || c.toNat = 0xd ||
  c.toNat = 0xb || c.toNat = 0xc || c.toNat = 0xa0 || c.toNat = 0x1680 ||
  (0x2000 ≤ c.toNat && c.toNat ≤ 0x200a) ||
  c.toNat = 0x2028 || c.toNat = 0x2029 || c.toNat = 0x202f ||
  c.toNat = 0x205f || c.toNat = 0x3000 || c.toNat = 0xfeff

/-- The literal part of the regex `/Total iterations:\s*(\d+)/`. -/
def tiMarker : List Char := "Total iterations:".data

/-- Attempt of `/Total iterations:\s*(\d+)/` at one position, returning
`parseInt` of the `(\d+)` capture.  `\s` and `\d` are disjoint, so the regex
backtracking on greedy `\s*` can never rescue a position whose maximal
whitespace run is not followed by a digit; the attempt semantics is therefore
deterministic: literal, maximal whitespace, then at least one digit. -/
def tiTryAt (cs : List Char) : Option Nat :=
  if tiMarker.isPrefixOf cs then
    let after := (cs.drop tiMarker.length).dropWhile reSpace
    let ds := after.takeWhile reDigit
    if ds = [] then none else some (parseDigits ds)
  else none

/-- Leftmost match of `/Total iterations:\s*(\d+)/` with `parseInt` of the
capture — the dashboard's `Total iterations` extraction. -/
def tiFind : List Char → Option Nat
  | [] => none
  | c :: rest =>
    match tiTryAt (c :: rest) with
    | some n => some n
    | none => tiFind rest

/-- Characters an ISO-8601 `Date.prototype.toISOString()` timestamp is made
of (`YYYY-MM-DDTHH:mm:ss.sssZ`). -/
def tsChar (c : Char) : Bool :=
  reDigit c || c = '-' || c = ':' || c = '.' || c = 'T' || c = 'Z'

/-- Adjacent pair `T`,`o` occurs somewhere in the list. -/
def hasTO : List Char → Bool
  | [] => false
  | [_] => false
  | a :: b :: rest => (a = 'T' && b = 'o') || hasTO (b :: rest)

/-! ## Dashboard static file serving

`serveStatic` (src/dashboard/dashboard-server.ts:229-258):
`filePath = path.join(PUBLIC_DIR, req.url === '/' ? '/index.html' : req.url)`
followed by the guard `if (!filePath.startsWith(PUBLIC_DIR)) → 403` and
otherwise `fs.readFile(filePath)`.  Node's POSIX `path.join` concatenates the
non-empty segments with `/` and runs `path.normalize` over the result, which
resolves `.` and `..` segments (keeping `..` above the root of a relative
path), collapses separators, and preserves a trailing separator. -/

/-- `String.prototype.split('/')`. -/
def splitSlash : List Char → List (List Char)
  | [] => [[]]
  | c :: rest =>
    if c = '/' then [] :: splitSlash rest
    else
      match splitSlash rest with
      | s :: ss => (c :: s) :: ss
      | [] => [[c]]

/-- One step of Node's `normalizeString` over a stack of kept segments
(stack is reversed: head = most recent). -/
def procSeg (allowAboveRoot : Bool) (stack : List (List Char))
    (seg : List Char) : List (List Char) :=
  if seg = [] ∨ seg = ['.'] then stack
  else if seg = ['.', '.'] then
    match stack with
    | s :: rest =>
      if s = ['.', '.'] then
        if allowAboveRoot then seg :: stack else stack
      else rest
    | [] => if allowAboveRoot then [seg] else []
  else seg :: stack

/-- The kept segments of a path, in order. -/
def normSegs (allowAboveRoot : Bool) (segs : List (List Char)) :
    List (List Char) :=
  (segs.foldl (procSeg allowAboveRoot) []).reverse

/-- Reassembly step of Node `path.posix.normalize` for a non-empty input:
prepend the root separator for an absolute path, keep a trailing separator,
and map an empty segment list to `/`, `./` or `.`. -/
def posixReassemble (isAbs trailing : Bool) (core : List Char) : List Char :=
  if core = [] then
    if isAbs then ['/'] else if trailing then ['.', '/'] else ['.']
  else
    (if isAbs then '/' :: core else core) ++ if trailing then ['/'] else []

/-- Node `path.posix.normalize`. -/
def posixNormalize (p : List Char) : List Char :=
  if p = [] then ['.']
  else
    posixReassemble (decide (p.head? = some '/')) (decide (p.getLast? = some '/'))
      (joinSep ['/']
        (normSegs (!decide (p.head? = some '/')) (splitSlash p)))

/-- Node `path.posix.join` of two segments. -/
def posixJoin (a b : List Char) : List Char :=
  if a = [] ∧ b = [] then ['.']
  else posixNormalize (a ++ (if a ≠ [] ∧ b ≠ [] then ['/'] else []) ++ b)

/-- `const PUBLIC_DIR = './dashboard/public'`. -/
def PUBLIC_DIR : List Char := "./dashboard/public".data

/-- Outcome of `serveStatic`: reject with `403 Forbidden`, or call
`fs.readFile` on the resolved path (which then serves the contents or 404s). -/
inductive StaticResp where
  | forbidden
  | readFile (path : List Char)
deriving DecidableEq, Repr

/-- `serveStatic(req, res)` for a request whose `req.url` is `url`. -/
def serveStatic (url : String) : StaticResp :=
  let fp0 : List Char := if url = "/" then "/index.html".data else url.data
  let fp := posixJoin PUBLIC_DIR fp0
  if PUBLIC_DIR.isPrefixOf fp then .readFile fp else .forbidden

theorem digitVal_digitChar {k : Nat} (h : k < 10) : digitVal (digitChar k) = k := by
  interval_cases k <;> decide

theorem reDigit_digitChar {k : Nat} (h : k < 10) : reDigit (digitChar k) = true := by
  interval_cases k <;> decide

theorem jsNumToStringCore_fuel (n : Nat) :
    ∀ fuel acc, n < fuel → jsNumToStringCore fuel n acc = jsNumToStringCore (n + 1) n acc := by
  induction n using Nat.strong_induction_on with
  | _ n ih =>
    intro fuel acc hf
    match fuel, hf with
    | fuel + 1, hf =>
      by_cases h10 : n < 10
      · simp [jsNumToStringCore, h10]
      · have hdiv : n / 10 < n := Nat.div_lt_self (by omega) (by omega)
        simp only [jsNumToStringCore, h10, if_false]
        rw [ih (n / 10) hdiv fuel _ (by omega), ih (n / 10) hdiv n _ (by omega)]

theorem jsNumToStringCore_acc (n : Nat) :
    ∀ acc, jsNumToStringCore (n + 1) n acc = jsNumToStringCore (n + 1) n [] ++ acc := by
  induction n using Nat.strong_induction_on with
  | _ n ih =>
    intro acc
    by_cases h10 : n < 10
    · simp [jsNumToStringCore, h10]
    · have hdiv : n / 10 < n := Nat.div_lt_self (by omega) (by omega)
      simp only [jsNumToStringCore, h10, if_false]
      rw [jsNumToStringCore_fuel (n / 10) n _ (by omega),
          jsNumToStringCore_fuel (n / 10) n _ (by omega),
          ih (n / 10) hdiv (digitChar (n % 10) :: acc),
          ih (n / 10) hdiv [digitChar (n % 10)]]
      simp

theorem jsNumToString_lt (n : Nat) (h : n < 10) : jsNumToString n = [digitChar n] := by
  simp [jsNumToString, jsNumToStringCore, h]

theorem jsNumToString_ge (n : Nat) (h : 10 ≤ n) :
    jsNumToString n = jsNumToString (n / 10) ++ [digitChar (n % 10)] := by
  have hdiv : n / 10 < n := Nat.div_lt_self (by omega) (by omega)
  simp only [jsNumToString, jsNumToStringCore, Nat.lt_irrefl]
  rw [if_neg (by omega)]
  rw [jsNumToStringCore_fuel (n / 10) n _ (by omega)]
  exact jsNumToStringCore_acc (n / 10) [digitChar (n % 10)]

theorem jsNumToString_ne_nil (n : Nat) : jsNumToString n ≠ [] := by
  by_cases h : n < 10
  · simp [jsNumToString_lt n h]
  · simp [jsNumToString_ge n (by omega)]

theorem parseDigits_append_one (cs : List Char) (c : Char) :
    parseDigits (cs ++ [c]) = parseDigits cs * 10 + digitVal c := by
  simp [parseDigits, List.foldl_append]

/-- Round trip: parsing the decimal string of `n` recovers `n`. -/
theorem parseDigits_jsNumToString (n : Nat) : parseDigits (jsNumToString n) = n := by
  induction n using Nat.strong_induction_on with
  | _ n ih =>
    by_cases h : n < 10
    · simp [jsNumToString_lt n h, parseDigits, digitVal_digitChar h]
    · have hdiv : n / 10 < n := Nat.div_lt_self (by omega) (by omega)
      rw [jsNumToString_ge n (by omega), parseDigits_append_one, ih (n / 10) hdiv,
          digitVal_digitChar (Nat.mod_lt n (by omega))]
      omega

/-- The decimal string of `n` consists of digit characters only. -/
theorem jsNumToString_all_digits (n : Nat) :
    ∀ c ∈ jsNumToString n, reDigit c = true := by
  induction n using Nat.strong_induction_on with
  | _ n ih =>
    intro c hc
    by_cases h : n < 10
    · rw [jsNumToString_lt n h] at hc
      simp at hc
      exact hc ▸ reDigit_digitChar h
    · have hdiv : n / 10 < n := Nat.div_lt_self (by omega) (by omega)
      rw [jsNumToString_ge n (by omega)] at hc
      rcases List.mem_append.mp hc with h1 | h2
      · exact ih (n / 10) hdiv c h1
      · simp at h2
        exact h2 ▸ reDigit_digitChar (Nat.mod_lt n (by omega))

/-- Decimal printing is injective (consequence of the round trip). -/
theorem jsNumToString_injective : Function.Injective jsNumToString := by
  intro a b h
  have := parseDigits_jsNumToString a
  rw [h, parseDigits_jsNumToString] at this
  omega

theorem bucketCount_eq_one_iff (s : Store) (id : String) :
    bucketCount s id = 1 ↔
      ∃ b, s b id = true ∧ ∀ b', b' ≠ b → s b' id = false := by
  constructor
  · intro h
    simp only [bucketCount, allBuckets] at h
    by_cases hp : s .pending id <;> by_cases hi : s .inProgress id <;>
      by_cases hc : s .completed id <;> by_cases hf : s .failed id <;>
      simp [hp, hi, hc, hf, List.filter] at h ⊢ <;>
      first
        | (exact ⟨.pending, hp, by rintro (_|_|_|_) hb <;> simp_all⟩)
        | (exact ⟨.inProgress, hi, by rintro (_|_|_|_) hb <;> simp_all⟩)
        | (exact ⟨.completed, hc, by rintro (_|_|_|_) hb <;> simp_all⟩)
        | (exact ⟨.failed, hf, by rintro (_|_|_|_) hb <;> simp_all⟩)
  · rintro ⟨b, hb, hother⟩
    have hp := fun h => hother .pending h
    have hi := fun h => hother .inProgress h
    have hc := fun h => hother .completed h
    have hf := fun h => hother .failed h
    cases b <;>
      simp only [bucketCount, allBuckets, List.filter] <;>
      simp [hb, hp, hi, hc, hf]

/-- Applying an operation for a different id never changes membership. -/
theorem applyOp_other (s : Store) (op : Op) (b : Bucket) (id : String)
    (h : ∀ src dst, op ≠ .transition id src dst) (h2 : op ≠ .create id) :
    applyOp s op b id = s b id := by
  cases op with
  | create id' =>
    have hne : id ≠ id' := fun he => h2 (by rw [he])
    simp only [applyOp, fsWrite]
    rw [if_neg]
    rintro ⟨-, he⟩
    exact hne he
  | transition id' src dst =>
    have hne : id ≠ id' := fun he => (h src dst) (by rw [he])
    simp only [applyOp, moveJob]
    by_cases hsrc : s src id' = true
    · simp only [hsrc, if_true, fsRename]
      rw [if_neg hne]
    · simp [hsrc]

theorem bucketCount_congr (s s' : Store) (id : String)
    (h : ∀ b, s' b id = s b id) : bucketCount s' id = bucketCount s id := by
  simp only [bucketCount, allBuckets, List.filter, h]

/-- Creating a fresh id puts it in exactly one bucket (`pending`). -/
theorem bucketCount_fsWrite_fresh (s : Store) (id : String)
    (h : ∀ b ∈ allBuckets, s b id = false) :
    bucketCount (fsWrite s .pending id) id = 1 := by
  rw [bucketCount_eq_one_iff]
  refine ⟨.pending, by simp [fsWrite], ?_⟩
  intro b' hb'
  have := h b' (by cases b' <;> simp [allBuckets])
  simp [fsWrite, hb', this]

/-- A guarded transition keeps an exclusively-stored id exclusive. -/
theorem bucketCount_transition (s : Store) (id id' : String) (src dst : Bucket)
    (h : bucketCount s id = 1) :
    bucketCount (applyOp s (.transition id' src dst)) id = 1 := by
  by_cases hid : id = id'
  · subst hid
    simp only [applyOp, moveJob]
    by_cases hsrc : s src id = true
    · simp only [hsrc, if_true]
      rw [bucketCount_eq_one_iff] at h ⊢
      obtain ⟨b, hb, hother⟩ := h
      have hbsrc : b = src := by
        by_contra hne
        have := hother src (fun he => hne he.symm)
        rw [this] at hsrc
        exact Bool.false_ne_true hsrc
      subst hbsrc
      refine ⟨dst, by simp [fsRename], ?_⟩
      intro b' hb'
      by_cases hb's : b' = b
      · subst hb's
        simp [fsRename, hb']
      · have := hother b' hb's
        simp [fsRename, hb', hb's, this]
    · simp only [hsrc]
      simpa using h
  · have hcongr := bucketCount_congr s (applyOp s (.transition id' src dst)) id
      (fun b => applyOp_other s _ b id
        (fun src' dst' he => hid (by injection he with h1; exact h1.symm))
        (by simp))
    rw [hcongr]
    exact h

/-- `freshCreates` restricts to prefixes of a trace. -/
theorem freshCreates_append_left (xs : List Op) :
    ∀ s ys, freshCreates s (xs ++ ys) = true → freshCreates s xs = true := by
  induction xs with
  | nil => intro s ys _; rfl
  | cons op xs ih =>
    intro s ys h
    cases op with
    | create id =>
      simp only [List.cons_append, freshCreates, Bool.and_eq_true] at h ⊢
      exact ⟨h.1, ih _ ys h.2⟩
    | transition id src dst =>
      simp only [List.cons_append, freshCreates] at h ⊢
      exact ih _ ys h

/-- Core invariant: executing a trace whose creations are fresh keeps every
tracked id, and every id created along the trace, in exactly one bucket. -/
theorem execOps_exclusive (p : List Op) :
    ∀ s, freshCreates s p = true →
      ∀ id, (id ∈ createdIds p ∨ bucketCount s id = 1) →
        bucketCount (execOps s p) id = 1 := by
  induction p with
  | nil =>
    intro s _ id hid
    rcases hid with h | h
    · simp [createdIds] at h
    · exact h
  | cons op p ih =>
    intro s hfresh id hid
    cases op with
    | create id' =>
      simp only [freshCreates, Bool.and_eq_true, decide_eq_true_eq] at hfresh
      obtain ⟨hfr, hrest⟩ := hfresh
      by_cases he : id = id'
      · subst he
        exact ih _ hrest id (Or.inr (bucketCount_fsWrite_fresh s id hfr))
      · rcases hid with h | h
        · simp only [createdIds, List.mem_cons] at h
          rcases h with h | h
          · exact absurd h he
          · exact ih _ hrest id (Or.inl h)
        · refine ih _ hrest id (Or.inr ?_)
          have hcongr := bucketCount_congr s (applyOp s (.create id')) id
            (fun b => applyOp_other s _ b id (by simp)
              (fun hh => he (by injection hh with h1; exact h1.symm)))
          rw [hcongr]
          exact h
    | transition id' src dst =>
      simp only [freshCreates] at hfresh
      rcases hid with h | h
      · simp only [createdIds] at h
        exact ih _ hfresh id (Or.inl h)
      · exact ih _ hfresh id (Or.inr (bucketCount_transition s id id' src dst h))

/-- **C1** — counterexample.  The claim demands exclusivity for *every*
trace of store operations; the code violates it when a job id is reused by a
later `create` (the Analysis Stage only keeps ids unique within one
iteration).  After `create a`, `a: pending → in-progress → completed`,
`create a` again, the id `a` is present in both `pending` and `completed`. -/
theorem C1_counterexample :
    "a" ∈ createdIds
        [Op.create "a", Op.transition "a" .pending .inProgress,
         Op.transition "a" .inProgress .completed, Op.create "a"] ∧
    execOps Store.empty
        [Op.create "a", Op.transition "a" .pending .inProgress,
         Op.transition "a" .inProgress .completed, Op.create "a"]
        .pending "a" = true ∧
    execOps Store.empty
        [Op.create "a", Op.transition "a" .pending .inProgress,
         Op.transition "a" .inProgress .completed, Op.create "a"]
        .completed "a" = true ∧
    bucketCount
      (execOps Store.empty
        [Op.create "a", Op.transition "a" .pending .inProgress,
         Op.transition "a" .inProgress .completed, Op.create "a"]) "a" ≠ 1 := by
  refine ⟨by decide, by decide, by decide, by decide⟩

/-- **C1** (amended): provided every `create` happens while its id is absent
from all four buckets (ids fresh — no reuse across iterations), every id
created so far is present in exactly one of the four buckets after every
prefix of the operation trace. -/
theorem C1_bucket_exclusivity (ops : List Op)
    (hfresh : freshCreates Store.empty ops = true)
    (p : List Op) (hp : p <+: ops)
    (id : String) (hid : id ∈ createdIds p) :
    bucketCount (execOps Store.empty p) id = 1 := by
  obtain ⟨ys, rfl⟩ := hp
  exact execOps_exclusive p Store.empty
    (freshCreates_append_left p Store.empty ys hfresh) id (Or.inl hid)

theorem C1_bucket_exclusivity_witness :
    bucketCount (execOps Store.empty
      [Op.create "a", Op.transition "a" .pending .inProgress]) "a" = 1 :=
  C1_bucket_exclusivity
    [Op.create "a", Op.transition "a" .pending .inProgress] (by decide)
    [Op.create "a", Op.transition "a" .pending .inProgress] List.prefix_rfl
    "a" (by decide)

/-- **C7** — counterexample.  The claim states that a transition whose record
is absent from the source bucket is "a no-op that is logged"; the move block
of `spawnWorker` contains no logging call, so at a concrete absent-record
input the log output is empty. -/
theorem C7_counterexample :
    Store.empty .pending "job-007" = false ∧
    (moveJob Store.empty "job-007" .pending .inProgress).2.2 = [] := by
  refine ⟨by decide, by decide⟩

/-- **C7** (amended): if the record is present in the source bucket, the
transition moves it (present in the target, gone from the source, all other
buckets and all other ids untouched) and emits exactly one `job:status` event
carrying that id and the target bucket before returning; if the record is
absent, the transition leaves every bucket unchanged, emits no event, and —
contrary to the claim — writes no log line (it writes none in either case). -/
theorem C7_transition_semantics (s : Store) (id : String) (src dst : Bucket) :
    (s src id = true →
      (moveJob s id src dst).1 dst id = true ∧
      (src ≠ dst → (moveJob s id src dst).1 src id = false) ∧
      (∀ b, b ≠ src → b ≠ dst → (moveJob s id src dst).1 b id = s b id) ∧
      (∀ j, j ≠ id → ∀ b, (moveJob s id src dst).1 b j = s b j) ∧
      (moveJob s id src dst).2.1 = [Ev.jobStatus id dst] ∧
      (moveJob s id src dst).2.2 = []) ∧
    (s src id = false →
      (∀ b j, (moveJob s id src dst).1 b j = s b j) ∧
      (moveJob s id src dst).2.1 = [] ∧
      (moveJob s id src dst).2.2 = []) := by
  unfold moveJob
  constructor
  · intro hpresent
    rw [if_pos hpresent]
    exact ⟨by simp [fsRename], fun hne => by simp [fsRename, hne],
      fun b hbs hbd => by simp [fsRename, hbs, hbd],
      fun j hj b => by simp [fsRename, hj], rfl, rfl⟩
  · intro habsent
    rw [if_neg (by simp [habsent])]
    exact ⟨fun _ _ => rfl, rfl, rfl⟩

theorem C7_transition_semantics_witness :
    (moveJob (fsWrite Store.empty .pending "a") "a" .pending .inProgress).2.1 =
      [Ev.jobStatus "a" .inProgress] ∧
    (moveJob Store.empty "b" .pending .inProgress).2.1 = [] :=
  ⟨((C7_transition_semantics (fsWrite Store.empty .pending "a") "a"
      .pending .inProgress).1 (by decide)).2.2.2.2.1,
   ((C7_transition_semantics Store.empty "b" .pending .inProgress).2
      (by decide)).2.1⟩

/-- Decimal strings never contain the branch separator `/`. -/
theorem slash_not_mem_jsNumToString (n : Nat) : '/' ∉ jsNumToString n := by
  intro hmem
  have := jsNumToString_all_digits n '/' hmem
  exact absurd this (by decide)

/-- Splitting at a separator absent from both left parts is unambiguous. -/
theorem append_slash_inj :
    ∀ a c b d : List Char, '/' ∉ a → '/' ∉ c →
      a ++ '/' :: b = c ++ '/' :: d → a = c ∧ b = d := by
  intro a
  induction a with
  | nil =>
    intro c b d _ hc h
    cases c with
    | nil => simpa using h
    | cons y c' =>
      simp only [List.nil_append, List.cons_append, List.cons.injEq] at h
      exact absurd (h.1 ▸ List.mem_cons_self y c') (by simp_all)
  | cons x a' ih =>
    intro c b d ha hc h
    cases c with
    | nil =>
      simp only [List.cons_append, List.nil_append, List.cons.injEq] at h
      exact absurd (h.1 ▸ List.mem_cons_self x a') (by simp_all)
    | cons y c' =>
      simp only [List.cons_append, List.cons.injEq] at h
      obtain ⟨rfl, h2⟩ := h
      have := ih c' b d (fun hm => ha (List.mem_cons_of_mem _ hm))
        (fun hm => hc (List.mem_cons_of_mem _ hm)) h2
      exact ⟨by rw [this.1], this.2⟩

/-- **C8**: the branch name `emergent/${iteration}/${id}` is an injective
function of the iteration number and the job id, so any two jobs of a run
that differ in iteration number or job id receive distinct branch names —
all branch names of a run are pairwise distinct. -/
theorem C8_branch_disjointness :
    (∀ i₁ id₁ i₂ id₂, branchName i₁ id₁ = branchName i₂ id₂ →
        i₁ = i₂ ∧ id₁ = id₂) ∧
    (∀ i₁ id₁ i₂ id₂, (i₁, id₁) ≠ (i₂, id₂) →
        branchName i₁ id₁ ≠ branchName i₂ id₂) := by
  have inj : ∀ i₁ id₁ i₂ id₂, branchName i₁ id₁ = branchName i₂ id₂ →
      i₁ = i₂ ∧ id₁ = id₂ := by
    intro i₁ id₁ i₂ id₂ h
    unfold branchName at h
    have h2 := @List.append_cancel_left Char ("emergent/".data)
      (jsNumToString i₁ ++ '/' :: id₁.data)
      (jsNumToString i₂ ++ '/' :: id₂.data) h
    have h3 := append_slash_inj (jsNumToString i₁) (jsNumToString i₂)
      id₁.data id₂.data (slash_not_mem_jsNumToString i₁)
      (slash_not_mem_jsNumToString i₂) h2
    refine ⟨jsNumToString_injective h3.1, ?_⟩
    cases id₁
    cases id₂
    exact congrArg String.mk h3.2
  refine ⟨inj, ?_⟩
  intro i₁ id₁ i₂ id₂ hne he
  obtain ⟨rfl, rfl⟩ := inj i₁ id₁ i₂ id₂ he
  exact hne rfl

theorem C8_branch_disjointness_witness :
    (3 = 3 ∧ "a" = "a") ∧ branchName 1 "x" ≠ branchName 2 "x" :=
  ⟨C8_branch_disjointness.1 3 "a" 3 "a" rfl,
   C8_branch_disjointness.2 1 "x" 2 "x" (by decide)⟩

/-- **C2**: if the Analysis Stage returns the empty job list for the
iteration, `runIteration` returns `false` before persisting any job, invoking
dispatch, or invoking merge, and the run loop ends with that iteration —
the controller is `Stopped` for that iteration with no dispatch, no merge, no
git command, no persisted job and no recorded result. -/
theorem C2_stopping_law (analysis : Nat → List Job) (succeeds : Job → Bool)
    (conflict : List Char → Bool) (ts : String) (fuel : Nat) (s : Store)
    (prev : Nat) (h : analysis (prev + 1) = []) :
    runFrom analysis succeeds conflict ts (fuel + 1) s prev =
      [runIteration analysis succeeds conflict ts s prev] ∧
    (runIteration analysis succeeds conflict ts s prev).dispatchCalled = false ∧
    (runIteration analysis succeeds conflict ts s prev).mergeCalled = false ∧
    (runIteration analysis succeeds conflict ts s prev).gitTrace = [] ∧
    (runIteration analysis succeeds conflict ts s prev).persisted = [] ∧
    (runIteration analysis succeeds conflict ts s prev).result = none ∧
    (runIteration analysis succeeds conflict ts s prev).continueLoop = false ∧
    (runIteration analysis succeeds conflict ts s prev).store = s := by
  refine ⟨?_, ?_, ?_, ?_, ?_, ?_, ?_, ?_⟩ <;>
    simp [runFrom, runIteration, h]

theorem C2_stopping_law_witness :
    runFrom (fun _ => []) (fun _ => true) (fun _ => false) "" 1 Store.empty 0 =
      [runIteration (fun _ => []) (fun _ => true) (fun _ => false) ""
        Store.empty 0] :=
  (C2_stopping_law (fun _ => []) (fun _ => true) (fun _ => false) "" 0
    Store.empty 0 rfl).1

theorem mergeLoop_filterMap (conflict : List Char → Bool) :
    ∀ bs : List (List Char),
      (mergeLoop conflict bs).filterMap mergeTarget = bs := by
  intro bs
  induction bs with
  | nil => rfl
  | cons b bs ih =>
    by_cases h : conflict b = true <;>
      simp [mergeLoop, h, mergeTarget, ih]

theorem mergeLoop_count_fetch (conflict : List Char → Bool) :
    ∀ bs : List (List Char),
      (mergeLoop conflict bs).count GitCmd.fetchAll = 0 := by
  intro bs
  induction bs with
  | nil => rfl
  | cons b bs ih =>
    by_cases h : conflict b = true <;>
      simp [mergeLoop, h, ih, List.count_cons, List.count_append]

theorem mergeLoop_count_push (conflict : List Char → Bool) :
    ∀ bs : List (List Char),
      (mergeLoop conflict bs).count GitCmd.push = 0 := by
  intro bs
  induction bs with
  | nil => rfl
  | cons b bs ih =>
    by_cases h : conflict b = true <;>
      simp [mergeLoop, h, ih, List.count_cons, List.count_append]

theorem mergeLoop_count_abort (conflict : List Char → Bool) :
    ∀ bs : List (List Char),
      (mergeLoop conflict bs).count GitCmd.mergeAbort =
        (bs.filter conflict).length := by
  intro bs
  induction bs with
  | nil => rfl
  | cons b bs ih =>
    by_cases h : conflict b = true <;>
      simp [mergeLoop, h, ih, List.count_cons, List.count_append,
        List.filter_cons]

/-- Every abort in the merge loop (with the closing push appended) directly
follows the merge of a conflicting branch. -/
theorem mergeLoop_abort_follows (conflict : List Char → Bool) :
    ∀ bs xs ys, mergeLoop conflict bs ++ [GitCmd.push] =
        xs ++ GitCmd.mergeAbort :: ys →
      ∃ b, conflict b = true ∧ xs.getLast? = some (GitCmd.merge b) := by
  intro bs
  induction bs with
  | nil =>
    intro xs ys h
    cases xs with
    | nil => simp [mergeLoop] at h
    | cons x xs' =>
      simp only [mergeLoop, List.nil_append, List.cons_append,
        List.cons.injEq] at h
      exact absurd h.2 (by simp)
  | cons b bs ih =>
    intro xs ys h
    by_cases hc : conflict b = true
    · simp only [mergeLoop, hc, if_true, List.cons_append, List.append_assoc,
        List.singleton_append] at h
      cases xs with
      | nil => simp at h
      | cons x xs' =>
        simp only [List.cons_append, List.cons.injEq] at h
        obtain ⟨rfl, h2⟩ := h
        cases xs' with
        | nil =>
          exact ⟨b, hc, by simp⟩
        | cons x' xs'' =>
          simp only [List.cons_append, List.cons.injEq] at h2
          obtain ⟨rfl, h3⟩ := h2
          obtain ⟨b', hb', hlast⟩ := ih xs'' ys (by simpa using h3)
          cases xs'' with
          | nil => simp at hlast
          | cons z zs =>
            exact ⟨b', hb', by simpa [List.getLast?_cons_cons] using hlast⟩
    · simp only [mergeLoop, hc, if_false, List.cons_append, List.nil_append,
        List.append_assoc] at h
      cases xs with
      | nil => simp at h
      | cons x xs' =>
        simp only [List.cons_append, List.cons.injEq] at h
        obtain ⟨rfl, h2⟩ := h
        obtain ⟨b', hb', hlast⟩ := ih xs' ys (by simpa using h2)
        cases xs' with
        | nil => simp at hlast
        | cons z zs =>
          exact ⟨b', hb', by simpa [List.getLast?_cons_cons] using hlast⟩

/-- **C5**: the Merge Stage issues no git command and reports success on an
empty branch list; on a non-empty list it fetches exactly once and first,
attempts `git merge` for exactly the dispatched branches in dispatch order,
issues one `git merge --abort` per conflicting branch and each abort
immediately follows the merge of a conflicting branch (the loop then
continues), and pushes exactly once, as the last command. -/
theorem C5_merge_protocol (conflict : List Char → Bool)
    (branches : List (List Char)) :
    ((mergeBranches conflict []).1 = true ∧
      (mergeBranches conflict []).2 = []) ∧
    (branches ≠ [] →
      (mergeBranches conflict branches).1 = true ∧
      (mergeBranches conflict branches).2.head? = some GitCmd.fetchAll ∧
      (mergeBranches conflict branches).2.count GitCmd.fetchAll = 1 ∧
      (mergeBranches conflict branches).2.filterMap mergeTarget = branches ∧
      (mergeBranches conflict branches).2.count GitCmd.push = 1 ∧
      (mergeBranches conflict branches).2.getLast? = some GitCmd.push ∧
      (mergeBranches conflict branches).2.count GitCmd.mergeAbort =
        (branches.filter conflict).length ∧
      (∀ xs ys, (mergeBranches conflict branches).2 =
          xs ++ GitCmd.mergeAbort :: ys →
        ∃ b, conflict b = true ∧ xs.getLast? = some (GitCmd.merge b))) := by
  constructor
  · exact ⟨rfl, rfl⟩
  · intro hne
    have htr : (mergeBranches conflict branches).2 =
        GitCmd.fetchAll :: (mergeLoop conflict branches ++ [GitCmd.push]) := by
      simp [mergeBranches, hne]
    refine ⟨by simp [mergeBranches, hne], by rw [htr]; rfl, ?_, ?_, ?_, ?_, ?_, ?_⟩
    · rw [htr]
      simp [List.count_cons, List.count_append, mergeLoop_count_fetch]
    · rw [htr]
      simp [mergeTarget, mergeLoop_filterMap]
    · rw [htr]
      simp [List.count_cons, List.count_append, mergeLoop_count_push]
    · rw [htr,
        show GitCmd.fetchAll :: (mergeLoop conflict branches ++ [GitCmd.push]) =
          (GitCmd.fetchAll :: mergeLoop conflict branches) ++ [GitCmd.push] by
            simp,
        List.getLast?_concat]
    · rw [htr]
      simp [List.count_cons, List.count_append, mergeLoop_count_abort]
    · intro xs ys h
      rw [htr] at h
      cases xs with
      | nil => simp at h
      | cons x xs' =>
        simp only [List.cons_append, List.cons.injEq] at h
        obtain ⟨rfl, h2⟩ := h
        obtain ⟨b, hb, hlast⟩ := mergeLoop_abort_follows conflict branches xs' ys h2
        cases xs' with
        | nil => simp at hlast
        | cons z zs =>
          exact ⟨b, hb, by simpa [List.getLast?_cons_cons] using hlast⟩

theorem chunkFuel_fuel (w : Nat) (hw : 1 ≤ w) :
    ∀ n (xs : List Job) fuel, xs.length = n → xs.length < fuel →
      chunkFuel w fuel xs = chunkFuel w (xs.length + 1) xs := by
  intro n
  induction n using Nat.strong_induction_on with
  | _ n ih =>
    intro xs fuel hn hf
    cases xs with
    | nil =>
      match fuel, hf with
      | f + 1, _ => rfl
    | cons x t =>
      match fuel, hf with
      | f + 1, hf =>
        simp only [List.length_cons] at hn hf
        simp only [chunkFuel, List.length_cons]
        have hd : ((x :: t).drop w).length ≤ t.length := by
          simp only [List.length_drop, List.length_cons]
          omega
        rw [ih ((x :: t).drop w).length (by omega) _ f rfl (by omega),
            ih ((x :: t).drop w).length (by omega) _ (t.length + 1) rfl (by omega)]

theorem chunk_cons (w : Nat) (hw : 1 ≤ w) (x : Job) (t : List Job) :
    chunk w (x :: t) = (x :: t).take w :: chunk w ((x :: t).drop w) := by
  show chunkFuel w ((x :: t).length + 1) (x :: t) = _
  simp only [chunkFuel, List.length_cons]
  congr 1
  have hd : ((x :: t).drop w).length ≤ t.length := by
    simp only [List.length_drop, List.length_cons]
    omega
  exact chunkFuel_fuel w hw ((x :: t).drop w).length _ _ rfl (by omega)

theorem chunk_join (w : Nat) (hw : 1 ≤ w) :
    ∀ n (xs : List Job), xs.length ≤ n → (chunk w xs).flatten = xs := by
  intro n
  induction n with
  | zero =>
    intro xs h
    rw [List.length_eq_zero.mp (Nat.le_zero.mp h)]
    rfl
  | succ n ih =>
    intro xs h
    cases xs with
    | nil => rfl
    | cons x t =>
      rw [chunk_cons w hw]
      show (x :: t).take w ++ (chunk w ((x :: t).drop w)).flatten = x :: t
      rw [ih ((x :: t).drop w) (by simp only [List.length_drop, List.length_cons] at *; omega)]
      exact List.take_append_drop w (x :: t)

theorem chunk_length (w : Nat) (hw : 1 ≤ w) :
    ∀ n (xs : List Job), xs.length ≤ n →
      (chunk w xs).length = (xs.length + w - 1) / w := by
  intro n
  induction n with
  | zero =>
    intro xs h
    rw [List.length_eq_zero.mp (Nat.le_zero.mp h)]
    show (0 : Nat) = (0 + w - 1) / w
    rw [Nat.div_eq_of_lt (by omega)]
  | succ n ih =>
    intro xs h
    cases xs with
    | nil =>
      show (0 : Nat) = (0 + w - 1) / w
      rw [Nat.div_eq_of_lt (by omega)]
    | cons x t =>
      rw [chunk_cons w hw]
      by_cases hle : t.length + 1 ≤ w
      · have hdrop : (x :: t).drop w = [] :=
          List.drop_eq_nil_of_le (by simpa using hle)
        rw [hdrop]
        have h1 : (t.length + w) / w = 1 :=
          Nat.div_eq_of_lt_le (by omega) (by omega)
        simp [h1, chunk, chunkFuel]
      · have hlen : ((x :: t).drop w).length = t.length + 1 - w := by
          simp [List.length_drop]
        have hle2 : ((x :: t).drop w).length ≤ n := by
          simp only [List.length_cons] at h
          omega
        simp only [List.length_cons]
        rw [ih ((x :: t).drop w) hle2, hlen]
        have heq : t.length + 1 + w - 1 = (t.length + 1 - w + w - 1) + w := by omega
        rw [heq, Nat.add_div_right _ (by omega)]

theorem chunk_dropLast_sizes (w : Nat) (hw : 1 ≤ w) :
    ∀ n (xs : List Job), xs.length ≤ n →
      ∀ b ∈ (chunk w xs).dropLast, b.length = w := by
  intro n
  induction n with
  | zero =>
    intro xs h
    rw [List.length_eq_zero.mp (Nat.le_zero.mp h)]
    intro b hb
    simp [chunk, chunkFuel] at hb
  | succ n ih =>
    intro xs h
    cases xs with
    | nil => intro b hb; simp [chunk, chunkFuel] at hb
    | cons x t =>
      rw [chunk_cons w hw]
      intro b hb
      cases hrest : chunk w ((x :: t).drop w) with
      | nil => rw [hrest] at hb; simp at hb
      | cons y ys =>
        rw [hrest, List.dropLast_cons_of_ne_nil (by simp)] at hb
        rcases List.mem_cons.mp hb with rfl | hb'
        · have hdne : (x :: t).drop w ≠ [] := by
            intro hnil
            rw [hnil] at hrest
            simp [chunk, chunkFuel] at hrest
          have hwlt : w < (x :: t).length := by
            by_contra hcon
            exact hdne (List.drop_eq_nil_of_le (by omega))
          simp only [List.length_take, List.length_cons]
          simp only [List.length_cons] at hwlt
          omega
        · rw [← hrest] at hb'
          exact ih ((x :: t).drop w)
            (by simp only [List.length_drop, List.length_cons] at *; omega) b hb'

theorem chunk_getLast_size (w : Nat) (hw : 1 ≤ w) :
    ∀ n (xs : List Job), xs.length ≤ n → xs ≠ [] →
      ∀ l, (chunk w xs).getLast? = some l →
        l.length = if xs.length % w = 0 then w else xs.length % w := by
  intro n
  induction n with
  | zero =>
    intro xs h hne
    exact absurd (List.length_eq_zero.mp (Nat.le_zero.mp h)) hne
  | succ n ih =>
    intro xs h hne l hl
    cases xs with
    | nil => exact absurd rfl hne
    | cons x t =>
      rw [chunk_cons w hw] at hl
      by_cases hle : t.length + 1 ≤ w
      · have hdrop : (x :: t).drop w = [] :=
          List.drop_eq_nil_of_le (by simpa using hle)
        rw [hdrop] at hl
        simp only [chunk, chunkFuel, List.getLast?_singleton, Option.some.injEq] at hl
        subst hl
        have htake : (x :: t).take w = x :: t :=
          List.take_of_length_le (by simpa using hle)
        rw [htake, List.length_cons]
        by_cases heq : t.length + 1 = w
        · have hm : (t.length + 1) % w = 0 := by
            rw [heq]
            exact Nat.mod_self w
          rw [if_pos hm]
          omega
        · have hlt : t.length + 1 < w := by omega
          have hm : (t.length + 1) % w = t.length + 1 := Nat.mod_eq_of_lt hlt
          rw [if_neg (by rw [hm]; omega), hm]
      · have hdne : (x :: t).drop w ≠ [] := by
          intro hnil
          have := congrArg List.length hnil
          simp only [List.length_drop, List.length_cons, List.length_nil] at this
          omega
        have hrne : chunk w ((x :: t).drop w) ≠ [] := by
          cases hd : (x :: t).drop w with
          | nil => exact absurd hd hdne
          | cons y ys => rw [chunk_cons w hw]; simp
        obtain ⟨z, zs, hz⟩ := List.exists_cons_of_ne_nil hrne
        rw [hz, List.getLast?_cons_cons] at hl
        rw [← hz] at hl
        have := ih ((x :: t).drop w)
          (by simp only [List.length_drop, List.length_cons] at *; omega) hdne l hl
        have hmod : ((x :: t).drop w).length % w = (x :: t).length % w := by
          simp only [List.length_drop, List.length_cons]
          have hsplit : t.length + 1 = (t.length + 1 - w) + w := by omega
          conv_rhs => rw [hsplit]
          rw [Nat.add_mod_right]
        rw [hmod] at this
        exact this

theorem chunk_two_five (jobs : List Job) (h : jobs.length = 5) :
    (chunk 2 jobs).map List.length = [2, 2, 1] := by
  match jobs, h with
  | [a, b, c, d, e], _ => rfl

theorem C5_merge_protocol_witness :
    (mergeBranches (fun b => decide (b = "B".data))
        ["A".data, "B".data, "C".data]).2.filterMap mergeTarget =
      ["A".data, "B".data, "C".data] ∧
    (∃ b, decide (b = "B".data) = true ∧
      [GitCmd.fetchAll, GitCmd.merge "A".data,
        GitCmd.merge "B".data].getLast? = some (GitCmd.merge b)) :=
  ⟨(((C5_merge_protocol (fun b => decide (b = "B".data))
      ["A".data, "B".data, "C".data]).2 (by decide)).2.2.2.1),
   (((C5_merge_protocol (fun b => decide (b = "B".data))
      ["A".data, "B".data, "C".data]).2 (by decide)).2.2.2.2.2.2.2
      [GitCmd.fetchAll, GitCmd.merge "A".data, GitCmd.merge "B".data]
      [GitCmd.merge "C".data, GitCmd.push] (by decide))⟩

theorem moveJob_other (s : Store) (id j : String) (src dst : Bucket)
    (b : Bucket) (h : j ≠ id) : (moveJob s id src dst).1 b j = s b j := by
  unfold moveJob
  by_cases hs : s src id = true
  · rw [if_pos hs]
    simp [fsRename, h]
  · rw [if_neg hs]

theorem spawnWorkerEffect_other (iter : Nat) (succ : Job → Bool) (s : Store)
    (job : Job) (b : Bucket) (j : String) (h : j ≠ job.id) :
    (spawnWorkerEffect iter succ s job).1 b j = s b j := by
  have hm : ∀ (s' : Store) (src dst b' : Bucket),
      (moveJob s' job.id src dst).1 b' j = s' b' j :=
    fun s' src dst b' => moveJob_other s' job.id j src dst b' h
  by_cases hs : succ job = true <;> simp [spawnWorkerEffect, hs, hm]

theorem moveJob_self (s : Store) (id : String) (src dst : Bucket)
    (h : s src id = true) : (moveJob s id src dst).1 dst id = true := by
  unfold moveJob
  rw [if_pos h]
  simp [fsRename]

theorem spawnWorkerEffect_self (iter : Nat) (succ : Job → Bool) (s : Store)
    (job : Job) (hpend : s .pending job.id = true) :
    (succ job = true →
      (spawnWorkerEffect iter succ s job).1 .completed job.id = true) ∧
    (succ job = false →
      (spawnWorkerEffect iter succ s job).1 .failed job.id = true) := by
  have h1 : (moveJob s job.id .pending .inProgress).1 .inProgress job.id = true :=
    moveJob_self s job.id .pending .inProgress hpend
  constructor
  · intro hs
    simp only [spawnWorkerEffect]
    rw [if_pos hs]
    exact moveJob_self _ job.id .inProgress .completed h1
  · intro hs
    simp only [spawnWorkerEffect]
    rw [if_neg (by simp [hs])]
    exact moveJob_self _ job.id .inProgress .failed h1

theorem runBatch_other (iter : Nat) (succ : Job → Bool) :
    ∀ (batch : List Job) (s : Store) (b : Bucket) (j : String),
      (∀ jb ∈ batch, j ≠ jb.id) →
      (runBatch iter succ s batch).1 b j = s b j := by
  intro batch
  induction batch with
  | nil => intro s b j _; rfl
  | cons jb rest ih =>
    intro s b j h
    simp only [runBatch]
    rw [ih _ b j (fun x hx => h x (List.mem_cons_of_mem _ hx)),
        spawnWorkerEffect_other iter succ s jb b j (h jb (List.mem_cons_self _ _))]

theorem runBatch_results (iter : Nat) (succ : Job → Bool) :
    ∀ (batch : List Job) (s : Store),
      (runBatch iter succ s batch).2.2 =
        batch.map (fun j => WorkerResult.mk (succ j) (branchName iter j.id)) := by
  intro batch
  induction batch with
  | nil => intro s; rfl
  | cons jb rest ih =>
    intro s
    simp only [runBatch, List.map_cons, ih]
    congr 1
    unfold spawnWorkerEffect
    by_cases hs : succ jb = true <;> simp [hs]

theorem runBatch_member (iter : Nat) (succ : Job → Bool) :
    ∀ (batch : List Job) (s : Store),
      (∀ j ∈ batch, s .pending j.id = true) →
      (batch.map Job.id).Nodup →
      ∀ j ∈ batch,
        (succ j = true → (runBatch iter succ s batch).1 .completed j.id = true) ∧
        (succ j = false → (runBatch iter succ s batch).1 .failed j.id = true) := by
  intro batch
  induction batch with
  | nil => intro s _ _ j hj; simp at hj
  | cons jb rest ih =>
    intro s hpend hnodup j hj
    simp only [List.map_cons, List.nodup_cons] at hnodup
    have hnotin : ∀ x ∈ rest, jb.id ≠ x.id := by
      intro x hx he
      exact hnodup.1 (he ▸ List.mem_map_of_mem Job.id hx)
    rcases List.mem_cons.mp hj with rfl | hj'
    · have hself := spawnWorkerEffect_self iter succ s j
        (hpend j (List.mem_cons_self _ _))
      have hkeep : ∀ b, (runBatch iter succ
          (spawnWorkerEffect iter succ s j).1 rest).1 b j.id =
          (spawnWorkerEffect iter succ s j).1 b j.id :=
        fun b => runBatch_other iter succ rest _ b j.id hnotin
      constructor
      · intro hs
        simp only [runBatch, hkeep]
        exact hself.1 hs
      · intro hs
        simp only [runBatch, hkeep]
        exact hself.2 hs
    · have hid : j.id ≠ jb.id := by
        intro he
        exact hnodup.1 (he ▸ List.mem_map_of_mem Job.id hj')
      have hpend' : ∀ x ∈ rest,
          (spawnWorkerEffect iter succ s jb).1 .pending x.id = true := by
        intro x hx
        by_cases hxid : x.id = jb.id
        · exact absurd hxid (fun he => hnodup.1 (he ▸ List.mem_map_of_mem Job.id hx))
        · rw [spawnWorkerEffect_other iter succ s jb .pending x.id hxid]
          exact hpend x (List.mem_cons_of_mem _ hx)
      exact ih _ hpend' hnodup.2 j hj'

theorem runBatches_other (iter : Nat) (succ : Job → Bool) :
    ∀ (bs : List (List Job)) (s : Store) (b : Bucket) (j : String),
      (∀ x ∈ bs.flatten, j ≠ x.id) →
      (runBatches iter succ s bs).1 b j = s b j := by
  intro bs
  induction bs with
  | nil => intro s b j _; rfl
  | cons bt rest ih =>
    intro s b j h
    simp only [runBatches]
    rw [ih _ b j (fun x hx => h x (by rw [List.flatten_cons]; exact List.mem_append_right _ hx)),
        runBatch_other iter succ bt s b j
          (fun x hx => h x (by rw [List.flatten_cons]; exact List.mem_append_left _ hx))]

theorem runBatches_results (iter : Nat) (succ : Job → Bool) :
    ∀ (bs : List (List Job)) (s : Store),
      (runBatches iter succ s bs).2.2 =
        bs.flatten.map (fun j => WorkerResult.mk (succ j) (branchName iter j.id)) := by
  intro bs
  induction bs with
  | nil => intro s; rfl
  | cons bt rest ih =>
    intro s
    simp only [runBatches, List.flatten_cons, List.map_append,
      runBatch_results, ih]

theorem runBatches_member (iter : Nat) (succ : Job → Bool) :
    ∀ (bs : List (List Job)) (s : Store),
      (∀ j ∈ bs.flatten, s .pending j.id = true) →
      (bs.flatten.map Job.id).Nodup →
      ∀ j ∈ bs.flatten,
        (succ j = true → (runBatches iter succ s bs).1 .completed j.id = true) ∧
        (succ j = false → (runBatches iter succ s bs).1 .failed j.id = true) := by
  intro bs
  induction bs with
  | nil => intro s _ _ j hj; simp at hj
  | cons bt rest ih =>
    intro s hpend hnodup j hj
    simp only [List.flatten_cons] at hj hpend
    simp only [List.flatten_cons, List.map_append, List.nodup_append] at hnodup
    obtain ⟨hn1, hn2, hdisj⟩ := hnodup
    rcases List.mem_append.mp hj with hjb | hjr
    · have hmem := runBatch_member iter succ bt s
        (fun x hx => hpend x (List.mem_append_left _ hx)) hn1 j hjb
      have hkeep : ∀ b, (runBatches iter succ
          (runBatch iter succ s bt).1 rest).1 b j.id =
          (runBatch iter succ s bt).1 b j.id := by
        intro b
        apply runBatches_other iter succ rest _ b j.id
        intro x hx he
        exact hdisj (he ▸ List.mem_map_of_mem Job.id hjb)
          (List.mem_map_of_mem Job.id hx)
      constructor
      · intro hs
        simp only [runBatches, hkeep]
        exact hmem.1 hs
      · intro hs
        simp only [runBatches, hkeep]
        exact hmem.2 hs
    · have hpend' : ∀ x ∈ rest.flatten,
          (runBatch iter succ s bt).1 .pending x.id = true := by
        intro x hx
        rw [runBatch_other iter succ bt s .pending x.id]
        · exact hpend x (List.mem_append_right _ hx)
        · intro y hy he
          exact hdisj (List.mem_map_of_mem Job.id hy)
            (he ▸ List.mem_map_of_mem Job.id hx)
      exact ih _ hpend' hn2 j hjr

theorem batchStarts_agree (iter : Nat) (succ : Job → Bool) :
    ∀ (bs : List (List Job)) (s : Store) (j : String),
      (∀ x ∈ bs.flatten, j ≠ x.id) →
      ∀ s' ∈ batchStarts iter succ s bs, ∀ b, s' b j = s b j := by
  intro bs
  induction bs with
  | nil =>
    intro s j _ s' hs' b
    simp only [batchStarts, List.mem_singleton] at hs'
    rw [hs']
  | cons bt rest ih =>
    intro s j h s' hs' b
    simp only [batchStarts, List.mem_cons] at hs'
    rcases hs' with rfl | hs'
    · rfl
    · rw [ih _ j (fun x hx => h x (by rw [List.flatten_cons]; exact List.mem_append_right _ hx))
          s' hs' b,
        runBatch_other iter succ bt s b j
          (fun x hx => h x (by rw [List.flatten_cons]; exact List.mem_append_left _ hx))]

/-- At the store where batch `i` of a batch list starts, every job of every
strictly earlier batch is already in a terminal bucket. -/
theorem batchStarts_terminal (iter : Nat) (succ : Job → Bool) :
    ∀ (bs : List (List Job)) (s : Store),
      (∀ j ∈ bs.flatten, s .pending j.id = true) →
      (bs.flatten.map Job.id).Nodup →
      ∀ (i : Nat) (s' : Store), (batchStarts iter succ s bs)[i]? = some s' →
        ∀ (k : Nat), k < i → ∀ (bk : List Job), bs[k]? = some bk →
          ∀ j ∈ bk, terminalIn s' j.id = true := by
  intro bs
  induction bs with
  | nil =>
    intro s _ _ i s' hi k hk bk hbk
    simp at hbk
  | cons bt rest ih =>
    intro s hpend hnodup i s' hi k hk bk hbk
    simp only [List.flatten_cons] at hpend
    simp only [List.flatten_cons, List.map_append, List.nodup_append] at hnodup
    obtain ⟨hn1, hn2, hdisj⟩ := hnodup
    cases i with
    | zero => omega
    | succ i' =>
      simp only [batchStarts, List.getElem?_cons_succ] at hi
      cases k with
      | zero =>
        simp only [List.getElem?_cons_zero, Option.some.injEq] at hbk
        subst hbk
        intro j hj
        have hmem := runBatch_member iter succ bt s
          (fun x hx => hpend x (List.mem_append_left _ hx)) hn1 j hj
        have hterm1 : terminalIn (runBatch iter succ s bt).1 j.id = true := by
          unfold terminalIn
          by_cases hs : succ j = true
          · simp [hmem.1 hs]
          · simp [hmem.2 (by simpa using hs)]
        have hagree := batchStarts_agree iter succ rest
          (runBatch iter succ s bt).1 j.id
          (fun x hx he => hdisj (he ▸ List.mem_map_of_mem Job.id hj)
            (List.mem_map_of_mem Job.id hx))
          s' (List.getElem?_mem hi)
        unfold terminalIn at hterm1 ⊢
        rw [hagree .completed, hagree .failed]
        exact hterm1
      | succ k' =>
        simp only [List.getElem?_cons_succ] at hbk
        have hpend' : ∀ x ∈ rest.flatten,
            (runBatch iter succ s bt).1 .pending x.id = true := by
          intro x hx
          rw [runBatch_other iter succ bt s .pending x.id]
          · exact hpend x (List.mem_append_right _ hx)
          · intro y hy he
            exact hdisj (List.mem_map_of_mem Job.id hy)
              (he ▸ List.mem_map_of_mem Job.id hx)
        exact ih _ hpend' hn2 i' s' hi k' (by omega) bk hbk

/-- **C4**: dispatch slices the job list in order into `⌈L/W⌉` batches: every
batch except the last has size `W`, the last has size `L mod W` when `W` does
not divide `L` (size `W` when it does); with `W = 2` and 5 jobs the batch
sizes are exactly 2, 2, 1; and — batches being strictly sequential — at the
store where any later batch starts, every job of every earlier batch has
already reached a terminal bucket (`completed` or `failed`). -/
theorem C4_batch_partitioning (w : Nat) (hw : 1 ≤ w) (iter : Nat)
    (succ : Job → Bool) (jobs : List Job) (s : Store)
    (hpend : ∀ j ∈ jobs, s .pending j.id = true)
    (hnodup : (jobs.map Job.id).Nodup) :
    (chunk w jobs).length = (jobs.length + w - 1) / w ∧
    (chunk w jobs).flatten = jobs ∧
    (∀ b ∈ (chunk w jobs).dropLast, b.length = w) ∧
    (∀ l, (chunk w jobs).getLast? = some l →
      l.length = if jobs.length % w = 0 then w else jobs.length % w) ∧
    (jobs.length = 5 → (chunk 2 jobs).map List.length = [2, 2, 1]) ∧
    (∀ (i : Nat) (s' : Store),
      (batchStarts iter succ s (chunk w jobs))[i + 1]? = some s' →
      ∀ (k : Nat), k ≤ i → ∀ (bk : List Job), (chunk w jobs)[k]? = some bk →
        ∀ j ∈ bk, terminalIn s' j.id = true) := by
  have hflat : (chunk w jobs).flatten = jobs := chunk_join w hw jobs.length jobs le_rfl
  refine ⟨chunk_length w hw jobs.length jobs le_rfl, hflat,
    chunk_dropLast_sizes w hw jobs.length jobs le_rfl, ?_, chunk_two_five jobs, ?_⟩
  · intro l hl
    rcases eq_or_ne jobs [] with rfl | hne
    · simp [chunk, chunkFuel] at hl
    · exact chunk_getLast_size w hw jobs.length jobs le_rfl hne l hl
  · intro i s' hi k hk bk hbk
    exact batchStarts_terminal iter succ (chunk w jobs) s
      (by rw [hflat]; exact hpend) (by rw [hflat]; exact hnodup)
      (i + 1) s' hi k (by omega) bk hbk

theorem C4_batch_partitioning_witness :
    (chunk 2 [mkJob "a", mkJob "b", mkJob "c", mkJob "d", mkJob "e"]).map
        List.length = [2, 2, 1] :=
  (C4_batch_partitioning 2 (by decide) 1 (fun _ => true)
      [mkJob "a", mkJob "b", mkJob "c", mkJob "d", mkJob "e"] allPending
      (by decide) (by decide)).2.2.2.2.1 rfl

theorem collectResults_map (iter : Nat) (succ : Job → Bool) :
    ∀ l : List Job,
      collectResults
          (l.map (fun j => WorkerResult.mk (succ j) (branchName iter j.id))) =
        ((l.filter (fun j => succ j)).map (fun j => branchName iter j.id),
         (l.filter (fun j => !succ j)).length) := by
  intro l
  induction l with
  | nil => rfl
  | cons j t ih =>
    by_cases hs : succ j = true <;>
      simp [collectResults, ih, List.filter_cons, hs]

theorem filter_length_total (p : Job → Bool) :
    ∀ l : List Job,
      (l.filter p).length + (l.filter (fun a => !p a)).length = l.length := by
  intro l
  induction l with
  | nil => rfl
  | cons x t ih =>
    by_cases h : p x = true <;> simp [List.filter_cons, h, ← ih] <;> omega

theorem filter_id_eq_single :
    ∀ (jobs : List Job) (jk : Job), jk ∈ jobs → (jobs.map Job.id).Nodup →
      jobs.filter (fun j => decide (j.id = jk.id)) = [jk] := by
  intro jobs
  induction jobs with
  | nil => intro jk h; simp at h
  | cons x t ih =>
    intro jk hmem hnodup
    simp only [List.map_cons, List.nodup_cons] at hnodup
    rcases List.mem_cons.mp hmem with rfl | hmem'
    · have hnil : t.filter (fun j => decide (j.id = jk.id)) = [] := by
        rw [List.filter_eq_nil_iff]
        intro a ha
        simp only [decide_eq_true_eq]
        intro he
        exact hnodup.1 (he ▸ List.mem_map_of_mem Job.id ha)
      simp [List.filter_cons, hnil]
    · have hxid : ¬(x.id = jk.id) := by
        intro he
        exact hnodup.1 (he ▸ List.mem_map_of_mem Job.id hmem')
      rw [List.filter_cons, if_neg (by simp [hxid])]
      exact ih jk hmem' hnodup.2

/-- **C3**: in a dispatched batch run in which exactly the job `jk` fails
(its execution oracle reports failure, everything else succeeds), every other
job's id reaches the `completed` bucket, `failed` is `1`, and
`branches.length + 1 = N`; the iteration result built from this run (as
`runIteration` builds it) therefore satisfies
`jobsCompleted + jobsFailed = N` and `jobsCompleted = branches.length`. -/
theorem C3_partial_failure_isolation (w : Nat) (hw : 1 ≤ w) (iter : Nat)
    (succ : Job → Bool) (jobs : List Job) (jk : Job) (hjk : jk ∈ jobs)
    (hfail : ∀ j ∈ jobs, (succ j = false ↔ j.id = jk.id))
    (hnodup : (jobs.map Job.id).Nodup) (s : Store)
    (hpend : ∀ j ∈ jobs, s .pending j.id = true) (ts : String) :
    (∀ j ∈ jobs, j.id ≠ jk.id →
      (runWorkers w iter succ s jobs).1 .completed j.id = true) ∧
    (runWorkers w iter succ s jobs).2.2.2 = 1 ∧
    (runWorkers w iter succ s jobs).2.2.1.length + 1 = jobs.length ∧
    (∀ result : IterationResult,
      result = IterationResult.mk iter
        (runWorkers w iter succ s jobs).2.2.1.length
        (runWorkers w iter succ s jobs).2.2.2
        (runWorkers w iter succ s jobs).2.2.1 ts →
      result.jobsCompleted + result.jobsFailed = jobs.length ∧
      result.jobsCompleted = result.branches.length) := by
  have hflat : (chunk w jobs).flatten = jobs := chunk_join w hw jobs.length jobs le_rfl
  have hres : (runWorkers w iter succ s jobs).2.2 =
      ((jobs.filter (fun j => succ j)).map (fun j => branchName iter j.id),
       (jobs.filter (fun j => !succ j)).length) := by
    simp only [runWorkers]
    rw [runBatches_results, hflat, collectResults_map]
  have hfilterfail : jobs.filter (fun j => !succ j) = [jk] := by
    have hcong : ∀ j ∈ jobs, (!succ j) = decide (j.id = jk.id) := by
      intro j hj
      have hiff := hfail j hj
      cases h : succ j
      · simp [hiff.mp h]
      · have hne : ¬(j.id = jk.id) := fun he => by simpa [h] using hiff.mpr he
        simp [hne]
    rw [List.filter_congr hcong]
    exact filter_id_eq_single jobs jk hjk hnodup
  have hfailed : (runWorkers w iter succ s jobs).2.2.2 = 1 := by
    rw [hres]
    simp [hfilterfail]
  have htotal := filter_length_total (fun j => succ j) jobs
  have hbranches : (runWorkers w iter succ s jobs).2.2.1.length + 1 = jobs.length := by
    rw [hres]
    simp only [List.length_map]
    rw [hfilterfail] at htotal
    simpa using htotal
  refine ⟨?_, hfailed, hbranches, ?_⟩
  · intro j hj hne
    have hsucc : succ j = true := by
      cases h : succ j
      · exact absurd ((hfail j hj).mp h) hne
      · rfl
    have := runBatches_member iter succ (chunk w jobs) s
      (by rw [hflat]; exact hpend) (by rw [hflat]; exact hnodup)
      j (by rw [hflat]; exact hj)
    exact this.1 hsucc
  · intro result hr
    subst hr
    constructor
    · show (runWorkers w iter succ s jobs).2.2.1.length +
        (runWorkers w iter succ s jobs).2.2.2 = jobs.length
      rw [hfailed]
      exact hbranches
    · rfl

theorem C3_partial_failure_isolation_witness :
    (runWorkers 2 1 (fun j => !decide (j.id = "b")) allPending
      [mkJob "a", mkJob "b", mkJob "c"]).2.2.2 = 1 :=
  (C3_partial_failure_isolation 2 (by decide) 1
    (fun j => !decide (j.id = "b")) [mkJob "a", mkJob "b", mkJob "c"]
    (mkJob "b") (by decide) (by decide) (by decide) allPending (by decide)
    "ts").2.1

theorem dropWhile_ne_head :
    ∀ (l : List Char) (c : Char) (cs' : List Char),
      l.dropWhile (fun c => c ≠ ']') = c :: cs' → c = ']' := by
  intro l
  induction l with
  | nil => intro c cs' h; simp at h
  | cons x t ih =>
    intro c cs' h
    by_cases hx : x = ']'
    · rw [List.dropWhile_cons, if_neg (by simp [hx])] at h
      injection h with h1 _
      rw [← h1, hx]
    · rw [List.dropWhile_cons, if_pos (by simp [hx])] at h
      exact ih c cs' h

theorem extractGreedy_none_of_no_rb :
    ∀ cs : List Char, ']' ∉ cs → extractGreedy cs = none := by
  intro cs
  induction cs with
  | nil => intro _; rfl
  | cons c rest ih =>
    intro h
    have h1 : ']' ∉ rest := fun hm => h (List.mem_cons_of_mem _ hm)
    simp only [extractGreedy]
    rw [if_neg]
    · exact ih h1
    · rintro ⟨-, hmem⟩
      exact h1 hmem

/-- What the greedy match `\[[\s\S]*\]` extracts: the substring from the
first `[` of the text (no `[` precedes it) through the last `]` of the text
(no `]` follows it). -/
theorem extractGreedy_spec :
    ∀ (cs sub : List Char), extractGreedy cs = some sub →
      ∃ pre post, cs = pre ++ sub ++ post ∧ '[' ∉ pre ∧ ']' ∉ post ∧
        sub.head? = some '[' ∧ sub.getLast? = some ']' := by
  intro cs
  induction cs with
  | nil => intro sub h; simp [extractGreedy] at h
  | cons c rest ih =>
    intro sub h
    simp only [extractGreedy] at h
    by_cases hc : c = '[' ∧ ']' ∈ rest
    · rw [if_pos hc] at h
      injection h with h
      subst h
      have hsplit : rest =
          upToLastRB rest ++ (rest.reverse.takeWhile (fun c => c ≠ ']')).reverse := by
        unfold upToLastRB
        rw [← List.reverse_append, List.takeWhile_append_dropWhile,
          List.reverse_reverse]
      have hdne : rest.reverse.dropWhile (fun c => c ≠ ']') ≠ [] := by
        rw [Ne, List.dropWhile_eq_nil_iff]
        intro hall
        have := hall ']' (by simpa using hc.2)
        simp at this
      refine ⟨[], (rest.reverse.takeWhile (fun c => c ≠ ']')).reverse,
        ?_, by simp, ?_, rfl, ?_⟩
      · rw [List.nil_append, hc.1]
        conv_lhs => rw [hsplit]
        simp
      · intro hmem
        rw [List.mem_reverse] at hmem
        have := List.mem_takeWhile_imp hmem
        simp at this
      · obtain ⟨z, zs, hz⟩ := List.exists_cons_of_ne_nil hdne
        have hzrb : z = ']' := dropWhile_ne_head rest.reverse z zs hz
        unfold upToLastRB
        rw [hz, List.reverse_cons,
          show '[' :: (zs.reverse ++ [z]) = ('[' :: zs.reverse) ++ [z] by simp,
          List.getLast?_concat, hzrb]
    · rw [if_neg hc] at h
      by_cases hcb : c = '['
      · have hnr : ']' ∉ rest := fun hm => hc ⟨hcb, hm⟩
        rw [extractGreedy_none_of_no_rb rest hnr] at h
        exact absurd h (by simp)
      · obtain ⟨pre, post, heq, hpre, hpost, hh, hl⟩ := ih sub h
        refine ⟨c :: pre, post, by simp [heq], ?_, hpost, hh, hl⟩
        intro hmem
        rcases List.mem_cons.mp hmem with he | hm
        · exact hcb he.symm
        · exact hpre hm

theorem extractLazy_none_of_no_rb :
    ∀ cs : List Char, ']' ∉ cs → extractLazy cs = none := by
  intro cs
  induction cs with
  | nil => intro _; rfl
  | cons c rest ih =>
    intro h
    have h1 : ']' ∉ rest := fun hm => h (List.mem_cons_of_mem _ hm)
    simp only [extractLazy]
    rw [if_neg]
    · exact ih h1
    · rintro ⟨-, hmem⟩
      exact h1 hmem

/-- What the lazy match `\[[\s\S]*?\]` extracts: from the first `[` through
the first `]` after it (no `]` in between). -/
theorem extractLazy_spec :
    ∀ (cs sub : List Char), extractLazy cs = some sub →
      ∃ pre mid post, cs = pre ++ sub ++ post ∧ '[' ∉ pre ∧
        sub = '[' :: (mid ++ [']']) ∧ ']' ∉ mid := by
  intro cs
  induction cs with
  | nil => intro sub h; simp [extractLazy] at h
  | cons c rest ih =>
    intro sub h
    simp only [extractLazy] at h
    by_cases hc : c = '[' ∧ ']' ∈ rest
    · rw [if_pos hc] at h
      injection h with h
      subst h
      have hdne : rest.dropWhile (fun c => c ≠ ']') ≠ [] := by
        rw [Ne, List.dropWhile_eq_nil_iff]
        intro hall
        have := hall ']' hc.2
        simp at this
      obtain ⟨z, zs, hz⟩ := List.exists_cons_of_ne_nil hdne
      have hzrb : z = ']' := dropWhile_ne_head rest z zs hz
      refine ⟨[], rest.takeWhile (fun c => c ≠ ']'), zs, ?_, by simp, rfl, ?_⟩
      · rw [List.nil_append, hc.1]
        have hsplit : rest = rest.takeWhile (fun c => c ≠ ']') ++ (']' :: zs) := by
          conv_lhs => rw [← List.takeWhile_append_dropWhile (p := fun c => c ≠ ']') (l := rest)]
          rw [hz, hzrb]
        conv_lhs => rw [hsplit]
        simp
      · intro hmem
        have := List.mem_takeWhile_imp hmem
        simp at this
    · rw [if_neg hc] at h
      by_cases hcb : c = '['
      · have hnr : ']' ∉ rest := fun hm => hc ⟨hcb, hm⟩
        rw [extractLazy_none_of_no_rb rest hnr] at h
        exact absurd h (by simp)
      · obtain ⟨pre, mid, post, heq, hpre, hsub, hmid⟩ := ih sub h
        refine ⟨c :: pre, mid, post, by simp [heq], ?_, hsub, hmid⟩
        intro hmem
        rcases List.mem_cons.mp hmem with he | hm
        · exact hcb he.symm
        · exact hpre hm

/-- **C6** — counterexample.  On `"noise [1] x ]"` the coordinator's greedy
extraction takes `"[1] x ]"` (first `[` to last `]`), whose parse fails, so
the code returns `[]`; the claim's procedure (first top-level array-shaped
substring, here `"[1]"`) returns a one-element list.  On
`"see [[1],[2]] end"` the simple runner's lazy extraction takes `"[[1]"`,
whose parse fails, so it returns `[]`; the claim's procedure parses
`"[[1],[2]]"` into a two-element list. -/
theorem C6_counterexample :
    codeAnalysisJobs "noise [1] x ]".data = [] ∧
    (specAnalysisJobs "noise [1] x ]".data).length = 1 ∧
    simpleAnalysisJobs "see [[1],[2]] end".data = [] ∧
    (specAnalysisJobs "see [[1],[2]] end".data).length = 2 :=
  ⟨rfl, rfl, rfl, rfl⟩

/-- **C6** (amended): the Analysis Stage produces its job list by locating —
in the events-enabled coordinator — the substring from the first `[` of the
response through the *last* `]` of the response (greedy `\[[\s\S]*\]`), and —
in the simple runner — the substring from the first `[` through the *first*
`]` after it (lazy `\[[\s\S]*?\]`), then `JSON.parse`-ing it; if no such
substring exists, or parsing the located substring fails, it returns the
empty list (and logs) rather than throwing; a successfully parsed array is
returned as-is (unvalidated). -/
theorem C6_parse_contract (output : List Char) :
    (∀ sub, extractGreedy output = some sub →
      ∃ pre post, output = pre ++ sub ++ post ∧ '[' ∉ pre ∧ ']' ∉ post ∧
        sub.head? = some '[' ∧ sub.getLast? = some ']') ∧
    (∀ sub, extractLazy output = some sub →
      ∃ pre mid post, output = pre ++ sub ++ post ∧ '[' ∉ pre ∧
        sub = '[' :: (mid ++ [']']) ∧ ']' ∉ mid) ∧
    (extractGreedy output = none → codeAnalysisJobs output = []) ∧
    (∀ sub, extractGreedy output = some sub → jsonParse sub = none →
      codeAnalysisJobs output = []) ∧
    (∀ sub elems, extractGreedy output = some sub →
      jsonParse sub = some (.arr elems) → codeAnalysisJobs output = elems) ∧
    (extractLazy output = none → simpleAnalysisJobs output = []) ∧
    (∀ sub, extractLazy output = some sub → jsonParse sub = none →
      simpleAnalysisJobs output = []) ∧
    (∀ sub elems, extractLazy output = some sub →
      jsonParse sub = some (.arr elems) → simpleAnalysisJobs output = elems) := by
  refine ⟨extractGreedy_spec output, extractLazy_spec output, ?_, ?_, ?_, ?_, ?_, ?_⟩
  · intro h
    simp [codeAnalysisJobs, h]
  · intro sub h hp
    simp [codeAnalysisJobs, h, hp]
  · intro sub elems h hp
    simp [codeAnalysisJobs, h, hp]
  · intro h
    simp [simpleAnalysisJobs, h]
  · intro sub h hp
    simp [simpleAnalysisJobs, h, hp]
  · intro sub elems h hp
    simp [simpleAnalysisJobs, h, hp]

theorem C6_parse_contract_witness :
    codeAnalysisJobs "x [1] y".data = [Json.num ['1']] :=
  (C6_parse_contract "x [1] y".data).2.2.2.2.1 "[1]".data [Json.num ['1']]
    rfl rfl

theorem reDigit_not_reSpace {c : Char} (h : reDigit c = true) : reSpace c = false := by
  have h' : 48 ≤ c.toNat ∧ c.toNat ≤ 57 := by
    simpa [reDigit] using h
  by_contra hsp
  rw [Bool.not_eq_false] at hsp
  simp only [reSpace, Bool.or_eq_true, decide_eq_true_eq, Bool.and_eq_true] at hsp
  omega

theorem tsChar_ne_o {c : Char} (h : tsChar c = true) : c ≠ 'o' := by
  intro he
  subst he
  exact absurd h (by decide)

theorem hasTO_cons_cons (a b : Char) (l : List Char) :
    hasTO (a :: b :: l) = ((a = 'T' && b = 'o') || hasTO (b :: l)) := rfl

theorem hasTO_cons_false {a : Char} {l : List Char}
    (h : hasTO (a :: l) = false) : hasTO l = false := by
  cases l with
  | nil => rfl
  | cons b rest =>
    rw [hasTO_cons_cons, Bool.or_eq_false_iff] at h
    exact h.2

theorem hasTO_append_false :
    ∀ (a b : List Char), hasTO a = false → hasTO b = false →
      (a.getLast? = some 'T' → b.head? ≠ some 'o') →
      hasTO (a ++ b) = false := by
  intro a
  induction a with
  | nil => intro b _ hb _; exact hb
  | cons x rest ih =>
    intro b ha hb hbd
    cases rest with
    | nil =>
      cases b with
      | nil => simpa using ha
      | cons y bs =>
        show hasTO (x :: y :: bs) = false
        rw [hasTO_cons_cons, Bool.or_eq_false_iff]
        refine ⟨?_, hb⟩
        rw [Bool.and_eq_false_iff]
        by_cases hx : x = 'T'
        · right
          rw [decide_eq_false_iff_not]
          intro hy
          exact hbd (by simp [hx]) (by simp [hy])
        · left
          rw [decide_eq_false_iff_not]
          exact hx
    | cons x' rest' =>
      show hasTO (x :: x' :: (rest' ++ b)) = false
      rw [hasTO_cons_cons, Bool.or_eq_false_iff]
      rw [hasTO_cons_cons, Bool.or_eq_false_iff] at ha
      refine ⟨ha.1, ?_⟩
      exact ih b ha.2 hb (by simpa [List.getLast?_cons_cons] using hbd)

theorem hasTO_of_tsChars :
    ∀ l : List Char, (∀ c ∈ l, tsChar c = true) → hasTO l = false := by
  intro l
  induction l with
  | nil => intro _; rfl
  | cons a rest ih =>
    intro h
    cases rest with
    | nil => rfl
    | cons b rest' =>
      rw [hasTO_cons_cons, Bool.or_eq_false_iff]
      constructor
      · rw [Bool.and_eq_false_iff]
        right
        rw [decide_eq_false_iff_not]
        exact tsChar_ne_o (h b (by simp))
      · exact ih (fun c hc => h c (List.mem_cons_of_mem _ hc))

theorem tiTryAt_none_of_no_marker {cs : List Char}
    (h : ¬ tiMarker <+: cs) : tiTryAt cs = none := by
  unfold tiTryAt
  rw [if_neg]
  intro hp
  exact h (( List.isPrefixOf_iff_prefix).mp hp)

theorem marker_starts_TO {cs : List Char} (h : tiMarker <+: cs) :
    ∃ t, cs = 'T' :: 'o' :: t := by
  obtain ⟨t, ht⟩ := h
  exact ⟨"tal iterations:".data ++ t, by rw [← ht]; rfl⟩

theorem no_marker_in_pre :
    ∀ (pre suf : List Char), hasTO (pre ++ suf.take 1) = false →
      ∀ i, i < pre.length → ¬ tiMarker <+: ((pre ++ suf).drop i) := by
  intro pre
  induction pre with
  | nil => intro suf _ i hi; simp at hi
  | cons c pre' ih =>
    intro suf h i hi hpref
    cases i with
    | zero =>
      rw [List.drop_zero] at hpref
      obtain ⟨t, ht⟩ := marker_starts_TO hpref
      rw [List.cons_append] at ht
      injection ht with h1 h2
      subst h1
      cases pre' with
      | nil =>
        rw [List.nil_append] at h2
        have hsuf1 : suf.take 1 = ['o'] := by rw [h2]; rfl
        rw [List.cons_append, List.nil_append, hsuf1] at h
        exact absurd h (by decide)
      | cons d pre'' =>
        have hd : d = 'o' := by
          have := congrArg List.head? h2
          simpa using this
        subst hd
        rw [List.cons_append, List.cons_append, hasTO_cons_cons] at h
        simp at h
    | succ i' =>
      rw [List.cons_append, List.drop_succ_cons] at hpref
      have h' : hasTO (pre' ++ suf.take 1) = false := by
        rw [List.cons_append] at h
        exact hasTO_cons_false h
      exact ih suf h' i' (by simpa using hi) hpref

theorem tiFind_append :
    ∀ (pre suf : List Char),
      (∀ i, i < pre.length → ¬ tiMarker <+: ((pre ++ suf).drop i)) →
      tiFind (pre ++ suf) = tiFind suf := by
  intro pre
  induction pre with
  | nil => intro suf _; rfl
  | cons c pre' ih =>
    intro suf h
    rw [List.cons_append]
    show tiFind (c :: (pre' ++ suf)) = tiFind suf
    have h0 : tiTryAt (c :: (pre' ++ suf)) = none := by
      apply tiTryAt_none_of_no_marker
      have := h 0 (by simp)
      simpa using this
    simp only [tiFind, h0]
    exact ih suf (fun i hi => by
      have := h (i + 1) (by simpa using Nat.succ_lt_succ hi)
      rwa [List.cons_append, List.drop_succ_cons] at this)

theorem takeWhile_all_append {p : Char → Bool} :
    ∀ (l r : List Char), (∀ c ∈ l, p c = true) →
      (∀ c rs, r = c :: rs → p c = false) →
      (l ++ r).takeWhile p = l := by
  intro l
  induction l with
  | nil =>
    intro r _ hr
    cases r with
    | nil => rfl
    | cons c rs =>
      rw [List.nil_append, List.takeWhile_cons, if_neg (by simp [hr c rs rfl])]
  | cons x t ih =>
    intro r hl hr
    rw [List.cons_append, List.takeWhile_cons,
      if_pos (by simp [hl x (List.mem_cons_self _ _)])]
    rw [ih r (fun c hc => hl c (List.mem_cons_of_mem _ hc)) hr]

theorem tiFind_of_tryAt {v : Nat} :
    ∀ (c : Char) (rest : List Char),
      tiTryAt (c :: rest) = some v → tiFind (c :: rest) = some v := by
  intro c rest h
  simp only [tiFind, h]

set_option maxHeartbeats 1000000 in
/-- **C10**: applying the dashboard's `Total iterations` regex extraction to
the product-state report written with iteration number `n ≥ 1` recovers
exactly `n`.  The only assumption about the rest of the report is that the
timestamp (which precedes the `Total iterations` line) is made of ISO-8601
characters — true of every `Date.prototype.toISOString()` value — so the
regex's leftmost match is the genuine `Total iterations` line. -/
theorem C10_iteration_roundtrip (n : Nat) (hn : 1 ≤ n)
    (result : IterationResult) (results : List IterationResult)
    (hts : ∀ c ∈ result.timestamp.data, tsChar c = true) :
    tiFind (stateContent n result results) = some n := by
  set tail : List Char :=
    "\n\n## Latest Iteration (#".data ++ jsNumToString result.iteration ++
    ")\n- Jobs completed: ".data ++ jsNumToString result.jobsCompleted ++
    "\n- Jobs failed: ".data ++ jsNumToString result.jobsFailed ++
    "\n- Branches merged: ".data ++
    (if joinSep ", ".data result.branches = [] then "none".data
      else joinSep ", ".data result.branches) ++
    "\n\n## History\n".data ++ joinSep "\n".data (results.map histLine) ++
    "\n".data with htail
  have hshape : stateContent n result results =
      ("# Product State\n\nLast updated: ".data ++ result.timestamp.data ++ ['\n']) ++
      (tiMarker ++ (' ' :: (jsNumToString n ++ tail))) := by
    rw [stateContent]
    rw [htail]
    have hlit : "\nTotal iterations: ".data = '\n' :: (tiMarker ++ [' ']) := rfl
    rw [hlit]
    simp [List.append_assoc]
  rw [hshape]
  set pre : List Char :=
    "# Product State\n\nLast updated: ".data ++ result.timestamp.data ++ ['\n']
    with hpre
  set suf : List Char := tiMarker ++ (' ' :: (jsNumToString n ++ tail)) with hsuf
  have hsuftake : suf.take 1 = ['T'] := by rw [hsuf]; rfl
  have hhasTO : hasTO (pre ++ suf.take 1) = false := by
    rw [hsuftake, hpre]
    have h1 : hasTO ("# Product State\n\nLast updated: ".data) = false := by decide
    have h2 : hasTO (result.timestamp.data ++ ['\n', 'T']) = false := by
      apply hasTO_append_false _ _ (hasTO_of_tsChars _ hts) (by decide)
      intro _ hcon
      simp at hcon
    have h3 := hasTO_append_false _ _ h1 h2 (fun hc => absurd hc (by decide))
    calc hasTO (("# Product State\n\nLast updated: ".data ++
            result.timestamp.data ++ ['\n']) ++ ['T'])
        = hasTO ("# Product State\n\nLast updated: ".data ++
            (result.timestamp.data ++ ['\n', 'T'])) := by
          congr 1
          simp
      _ = false := h3
  rw [tiFind_append pre suf (no_marker_in_pre pre suf hhasTO)]
  have hcons : suf = 'T' :: ("otal iterations:".data ++
      (' ' :: (jsNumToString n ++ tail))) := by rw [hsuf]; rfl
  rw [hcons]
  apply tiFind_of_tryAt
  rw [← hcons]
  unfold tiTryAt
  rw [if_pos (by
    rw [hsuf]
    exact ( List.isPrefixOf_iff_prefix).mpr ( List.prefix_append _ _))]
  rw [hsuf]
  have hdrop : (tiMarker ++ (' ' :: (jsNumToString n ++ tail))).drop
      tiMarker.length = ' ' :: (jsNumToString n ++ tail) :=
    List.drop_left _ _
  rw [hdrop]
  have hdw : (' ' :: (jsNumToString n ++ tail)).dropWhile reSpace =
      jsNumToString n ++ tail := by
    rw [List.dropWhile_cons, if_pos (by decide)]
    obtain ⟨d, ds, hd⟩ := List.exists_cons_of_ne_nil (jsNumToString_ne_nil n)
    rw [hd, List.cons_append, List.dropWhile_cons,
      if_neg (by
        have hdig : reDigit d = true :=
          jsNumToString_all_digits n d (by rw [hd]; exact List.mem_cons_self _ _)
        simp [reDigit_not_reSpace hdig])]
  rw [hdw]
  have htw : (jsNumToString n ++ tail).takeWhile reDigit = jsNumToString n := by
    apply takeWhile_all_append _ _ (jsNumToString_all_digits n)
    intro c rs hr
    have hhd : tail.head? = some '\n' := by rw [htail]; rfl
    rw [hr] at hhd
    simp only [List.head?_cons, Option.some.injEq] at hhd
    rw [hhd]
    decide
  show (if (jsNumToString n ++ tail).takeWhile reDigit = [] then none
      else some (parseDigits ((jsNumToString n ++ tail).takeWhile reDigit))) = some n
  rw [htw, if_neg (jsNumToString_ne_nil n), parseDigits_jsNumToString]

theorem C10_iteration_roundtrip_witness :
    tiFind (stateContent 3
      (IterationResult.mk 3 2 1 [] "2025-01-01T00:00:00.000Z") []) = some 3 :=
  C10_iteration_roundtrip 3 (by decide)
    (IterationResult.mk 3 2 1 [] "2025-01-01T00:00:00.000Z") []
    (by decide)

theorem splitSlash_no_slash :
    ∀ (l : List Char), ∀ s ∈ splitSlash l, '/' ∉ s := by
  intro l
  induction l with
  | nil =>
    intro s hs
    simp only [splitSlash, List.mem_singleton] at hs
    simp [hs]
  | cons c rest ih =>
    intro s hs
    simp only [splitSlash] at hs
    by_cases hc : c = '/'
    · rw [if_pos hc] at hs
      rcases List.mem_cons.mp hs with rfl | hs'
      · simp
      · exact ih s hs'
    · rw [if_neg hc] at hs
      cases hsp : splitSlash rest with
      | nil =>
        rw [hsp] at hs
        simp only [List.mem_singleton] at hs
        subst hs
        intro hm
        rcases List.mem_cons.mp hm with he | hm'
        · exact hc he.symm
        · simp at hm'
      | cons s₀ ss =>
        rw [hsp] at hs
        rcases List.mem_cons.mp hs with rfl | hs'
        · intro hm
          rcases List.mem_cons.mp hm with he | hm'
          · exact hc he.symm
          · exact ih s₀ (hsp ▸ List.mem_cons_self _ _) hm'
        · exact ih s (hsp ▸ List.mem_cons_of_mem _ hs')

theorem foldl_procSeg_good (allow : Bool) :
    ∀ (segs acc : List (List Char)),
      (∀ s ∈ acc, s ≠ [] ∧ s ≠ ['.'] ∧ '/' ∉ s) →
      (∀ s ∈ segs, '/' ∉ s) →
      ∀ s ∈ segs.foldl (procSeg allow) acc,
        s ≠ [] ∧ s ≠ ['.'] ∧ '/' ∉ s := by
  intro segs
  induction segs with
  | nil => intro acc hacc _ s hs; exact hacc s hs
  | cons seg rest ih =>
    intro acc hacc hsl s hs
    rw [List.foldl_cons] at hs
    refine ih (procSeg allow acc seg) ?_ (fun x hx => hsl x (List.mem_cons_of_mem _ hx)) s hs
    intro x hx
    unfold procSeg at hx
    by_cases h1 : seg = [] ∨ seg = ['.']
    · rw [if_pos h1] at hx
      exact hacc x hx
    · rw [if_neg h1] at hx
      by_cases h2 : seg = ['.', '.']
      · rw [if_pos h2] at hx
        cases hst : acc with
        | nil =>
          rw [hst] at hx
          by_cases ha : allow = true
          · rw [ha, if_pos rfl] at hx
            simp only [List.mem_singleton] at hx
            subst hx
            rw [h2]
            refine ⟨by simp, by simp, by simp⟩
          · rw [Bool.not_eq_true] at ha
            rw [ha] at hx
            simp at hx
        | cons a as =>
          rw [hst] at hx
          dsimp only at hx
          by_cases hdd : a = ['.', '.']
          · rw [if_pos hdd] at hx
            by_cases ha : allow = true
            · rw [ha, if_pos rfl] at hx
              rcases List.mem_cons.mp hx with rfl | hx'
              · rw [h2]
                refine ⟨by simp, by simp, by simp⟩
              · exact hacc x (hst ▸ hx')
            · rw [Bool.not_eq_true] at ha
              rw [ha] at hx
              simp only [Bool.false_eq_true, if_false] at hx
              exact hacc x (hst ▸ hx)
          · rw [if_neg hdd] at hx
            exact hacc x (hst ▸ List.mem_cons_of_mem _ hx)
      · rw [if_neg h2] at hx
        rcases List.mem_cons.mp hx with rfl | hx'
        · push_neg at h1
          exact ⟨h1.1, h1.2, hsl x (List.mem_cons_self _ _)⟩
        · exact hacc x hx'

theorem normSegs_good (allow : Bool) (p : List Char) :
    ∀ s ∈ normSegs allow (splitSlash p), s ≠ [] ∧ s ≠ ['.'] ∧ '/' ∉ s := by
  intro s hs
  unfold normSegs at hs
  rw [List.mem_reverse] at hs
  exact foldl_procSeg_good allow (splitSlash p) [] (by simp)
    (splitSlash_no_slash p) s hs

theorem no_dot_slash_start (s₀ z r : List Char)
    (h1 : s₀ ≠ []) (h2 : s₀ ≠ ['.']) (h3 : '/' ∉ s₀) :
    ¬ (('.' :: '/' :: r) <+: (s₀ ++ z)) := by
  rintro ⟨t, ht⟩
  cases s₀ with
  | nil => exact h1 rfl
  | cons a s' =>
    simp only [List.cons_append, List.append_assoc] at ht
    injection ht with ha ht2
    cases s' with
    | nil => exact h2 (by rw [← ha])
    | cons b s'' =>
      simp only [List.cons_append] at ht2
      injection ht2 with hb _
      exact h3 (by
        rw [List.mem_cons]
        right
        rw [List.mem_cons]
        left
        exact hb)

/-- The output of Node's `path.posix.normalize` never starts with
`./dashboard/public`: normalization strips the leading `.` segment. -/
theorem posixNormalize_no_public_start (p : List Char) :
    ¬ (PUBLIC_DIR <+: posixNormalize p) := by
  intro h
  have hpd : PUBLIC_DIR = '.' :: '/' :: "dashboard/public".data := rfl
  unfold posixNormalize at h
  by_cases hp : p = []
  · rw [if_pos hp] at h
    have := h.length_le
    rw [hpd] at this
    simp at this
  · rw [if_neg hp] at h
    unfold posixReassemble at h
    by_cases hcore : joinSep ['/']
        (normSegs (!decide (p.head? = some '/')) (splitSlash p)) = []
    · rw [if_pos hcore] at h
      have hlen := h.length_le
      rw [hpd] at hlen
      split_ifs at h <;> simp_all
    · rw [if_neg hcore] at h
      cases hsg : normSegs (!decide (p.head? = some '/')) (splitSlash p) with
      | nil =>
        rw [hsg] at hcore
        exact hcore rfl
      | cons s₀ rest =>
        have hgood := normSegs_good (!decide (p.head? = some '/')) p s₀
          (hsg ▸ List.mem_cons_self _ _)
        have hcore_eq : ∃ R, joinSep ['/'] (s₀ :: rest) = s₀ ++ R := by
          cases rest with
          | nil => exact ⟨[], by simp [joinSep]⟩
          | cons y ys => exact ⟨'/' :: joinSep ['/'] (y :: ys), by simp [joinSep]⟩
        obtain ⟨R, hR⟩ := hcore_eq
        rw [hsg, hR] at h
        by_cases habs : decide (p.head? = some '/') = true
        · rw [if_pos habs] at h
          obtain ⟨t, ht⟩ := h
          rw [hpd] at ht
          rw [show ('.' :: '/' :: "dashboard/public".data) ++ t =
            '.' :: ('/' :: ("dashboard/public".data ++ t)) by simp] at ht
          have := congrArg List.head? ht
          simp at this
        · rw [if_neg habs] at h
          rw [hpd] at h
          rw [List.append_assoc] at h
          exact no_dot_slash_start s₀ _ "dashboard/public".data
            hgood.1 hgood.2.1 hgood.2.2 h

/-- **C9** (code bug): every static request is rejected with `403 Forbidden`.
`path.join(PUBLIC_DIR, url)` normalizes away the leading `./` of
`./dashboard/public`, so the guard `filePath.startsWith(PUBLIC_DIR)` never
holds: the traversal-rejection half of the claim holds vacuously (no file —
inside or outside the public root — is ever read), but no file under the
public root is ever served either, contradicting the claim's serving half. -/
theorem C9_static_always_forbidden (url : String) :
    serveStatic url = .forbidden := by
  have hmain : ∀ b : List Char,
      PUBLIC_DIR.isPrefixOf (posixJoin PUBLIC_DIR b) = false := by
    intro b
    by_contra hbad
    rw [Bool.not_eq_false] at hbad
    have h := ( List.isPrefixOf_iff_prefix).mp hbad
    unfold posixJoin at h
    rw [if_neg (by
      rintro ⟨hc, -⟩
      exact absurd hc (by decide))] at h
    exact posixNormalize_no_public_start _ h
  simp [serveStatic, hmain]

end Maximus
